import Mathlib

/-!
Verification of the MCDR-ChatLink cluster synchronization core.

This file is a shallow embedding, in Lean 4, of the parts of the
`chat_sync` package that the specification talks about:

* the `ChatSyncObj` envelope and its dict (de)serialization
  (`src/chat_sync/__init__.py`, `ChatSyncObj.to_dict` / `from_dict`);
* the message router `handle_network_message`
  (`src/chat_sync/__init__.py`, lines 204-292);
* the hub network layer: `_broadcast_to_clients`,
  `_handle_chat_sync_message`, `send_chat_sync_message`
  (`src/chat_sync/network.py`);
* the framed transport `_send_message` / `_receive_message` /
  `_receive_exact` together with executable models of Python's
  `json.dumps` / `json.loads` (restricted to the value shapes this
  program puts on the wire: null, bool, int, str, dict) and of
  UTF-8 encoding/decoding;
* the authentication gate `_authenticate_client` / `_handle_client`;
* the roster aggregation `get_all_player_lists`
  (`src/chat_sync/utils.py`) and its temporary reply handler;
* the leaf reconnect loop `_client_loop`.

Machine integers do not occur (Python ints are unbounded); byte
streams are lists of naturals below 256; time is the abstract unit
advanced by `time.sleep(5)` in the reconnect loop.
-/

/-! ## Envelope data model (`ChatSyncObj`, `src/chat_sync/__init__.py` 24-49) -/

/-- The `ChatSyncObj` message object.  `type` codes: 0 leaf chat,
1 leaf event, 2 peer chat, 3 peer event, 4 gateway (QQ) chat,
5 roster query, 6 roster reply. -/
structure ChatSyncObj where
  type : Nat
  server_name : String
  player : Option String
  message : String
deriving Repr, DecidableEq

/-- A Python dict holding the four envelope keys.  The `player` field is
`none` when the key is absent and `some v` when the key is present with
(nullable) value `v`; the other three keys are required by `from_dict`
(a missing one raises `KeyError` in the source, so dicts lacking them
are outside this model). -/
structure ChatSyncDict where
  type : Nat
  server_name : String
  player : Option (Option String)
  message : String
deriving Repr, DecidableEq

/-- Serialization `ChatSyncObj.to_dict`: emits all four keys, `player`
possibly null. -/
def ChatSyncObj.to_dict (o : ChatSyncObj) : ChatSyncDict :=
  ⟨o.type, o.server_name, some o.player, o.message⟩

/-- Deserialization `ChatSyncObj.from_dict`: `data.get('player')`
yields `None` both for an absent key and for an explicit null, which is
exactly `Option.getD d.player none`. -/
def ChatSyncObj.from_dict (d : ChatSyncDict) : ChatSyncObj :=
  ⟨d.type, d.server_name, d.player.getD none, d.message⟩

/-! ## Configuration (`src/chat_sync/config.py`) -/

/-- The slice of `ChatSyncConfig` consulted by the router and the
network layer. -/
structure ChatSyncConfig where
  main_server : Bool
  sync_mc_to_mc : Bool
  sync_mc_to_qq : Bool
  mc_server_name : String
deriving Repr, DecidableEq

/-! ## Message router (`handle_network_message`, `__init__.py` 204-292) -/

/-- One observable action of `handle_network_message`: show a line in
the local game (`forward_to_game`), hand an envelope to
`network_manager.send_chat_sync_message` with an optional excluded
client, forward to the QQ gateway (`forward_to_qq_group`), or log a
role violation / unknown-type error. -/
inductive RouterEffect where
  | showLocal (obj : ChatSyncObj) (isEvent : Bool)
  | netSend (obj : ChatSyncObj) (excludeClient : Option String)
  | qqForward (obj : ChatSyncObj) (isEvent : Bool)
  | logWrongRole
  | logUnknownType
deriving Repr, DecidableEq

/-- The router `handle_network_message(message_data, sender_id)`, as a
pure function from the decoded envelope to the list of actions it
fires, in program order.  `localPlayerList` is the string returned by
`get_player_list` when the type-5 branch consults it. -/
def handleNetworkMessage (cfg : ChatSyncConfig) (obj : ChatSyncObj)
    (senderId : String) (localPlayerList : String) : List RouterEffect :=
  if obj.type == 0 then
    (if !cfg.main_server then [RouterEffect.logWrongRole] else []) ++
    (if cfg.sync_mc_to_mc then
      [RouterEffect.showLocal obj false,
       RouterEffect.netSend ⟨2, obj.server_name, obj.player, obj.message⟩ (some senderId)]
     else []) ++
    (if cfg.sync_mc_to_qq then [RouterEffect.qqForward obj false] else [])
  else if obj.type == 1 then
    (if !cfg.main_server then [RouterEffect.logWrongRole] else []) ++
    (if cfg.sync_mc_to_mc then
      [RouterEffect.showLocal obj true,
       RouterEffect.netSend ⟨3, obj.server_name, obj.player, obj.message⟩ (some senderId)]
     else []) ++
    (if cfg.sync_mc_to_qq then [RouterEffect.qqForward obj true] else [])
  else if obj.type == 2 then
    (if cfg.main_server then [RouterEffect.logWrongRole] else []) ++
    [RouterEffect.showLocal obj false]
  else if obj.type == 3 then
    (if cfg.main_server then [RouterEffect.logWrongRole] else []) ++
    [RouterEffect.showLocal obj true]
  else if obj.type == 4 then
    [RouterEffect.showLocal obj false]
  else if obj.type == 5 then
    if cfg.main_server then [RouterEffect.logWrongRole]
    else
      [RouterEffect.netSend
        ⟨6, cfg.mc_server_name, none, obj.message ++ "|" ++ localPlayerList⟩ none]
  else if obj.type == 6 then
    (if !cfg.main_server then [RouterEffect.logWrongRole] else [])
  else
    [RouterEffect.logUnknownType]

/-! ## Hub network layer (`src/chat_sync/network.py`) -/

/-- The skip condition of `_broadcast_to_clients`:
`if exclude_client and client_id == exclude_client: continue`.
Python truthiness makes `None` and the empty string non-excluding. -/
def excludedBy (exclude : Option String) (cid : String) : Bool :=
  match exclude with
  | none => false
  | some e => if e = "" then false else cid == e

/-- The list of client ids `_broadcast_to_clients` actually sends to,
in registry iteration order. -/
def broadcastTargets (registry : List String) (exclude : Option String) : List String :=
  registry.filter (fun cid => !excludedBy exclude cid)

/-- Wire sends performed by `send_chat_sync_message(obj, exclude)`:
on the hub a broadcast to every non-excluded registered client, on a
leaf a single send to the hub (labelled `"main_server"`) when
connected.  Each send carries the dict produced by `to_dict`. -/
def sendChatSyncWire (cfg : ChatSyncConfig) (registry : List String)
    (connectedToHub : Bool) (obj : ChatSyncObj) (exclude : Option String) :
    List (String × ChatSyncDict) :=
  if cfg.main_server then
    (broadcastTargets registry exclude).map (fun cid => (cid, obj.to_dict))
  else if connectedToHub then [("main_server", obj.to_dict)]
  else []

/-- Expansion of the router's `netSend` actions into wire sends. -/
def routerWireSends (cfg : ChatSyncConfig) (registry : List String)
    (connectedToHub : Bool) (effects : List RouterEffect) :
    List (String × ChatSyncDict) :=
  effects.flatMap (fun e =>
    match e with
    | RouterEffect.netSend o ex => sendChatSyncWire cfg registry connectedToHub o ex
    | _ => [])

/-- Complete wire output of `_handle_chat_sync_message(data, sender_id)`
on one node for one received envelope dict `d`: first the handler
(`handle_network_message`) runs and its sends are expanded, then — the
unconditional final step of `_handle_chat_sync_message` — if this node
is the main server and the sender is not `"main_server"`, the raw
received dict is re-broadcast verbatim to every other client,
regardless of any sync toggle. -/
def hubProcessChatSync (cfg : ChatSyncConfig) (registry : List String)
    (localPlayerList : String) (d : ChatSyncDict) (senderId : String) :
    List (String × ChatSyncDict) :=
  routerWireSends cfg registry true
    (handleNetworkMessage cfg (ChatSyncObj.from_dict d) senderId localPlayerList) ++
  (if cfg.main_server && senderId != "main_server" then
    (broadcastTargets registry (some senderId)).map (fun cid => (cid, d))
   else [])

/-- Local display and gateway actions of the router, kept for the
forwarding-table analysis. -/
def routerLocalShows (effects : List RouterEffect) : List (ChatSyncObj × Bool) :=
  effects.flatMap (fun e =>
    match e with
    | RouterEffect.showLocal o b => [(o, b)]
    | _ => [])

/-! ## Claim C10: envelope serialization round-trip -/

/-- Claim C10: for every `ChatSyncObj` `x`,
`from_dict (to_dict x)` reproduces `x` in all four fields, and
`from_dict` of a dict with no `player` key defaults `player` to
`none`. -/
theorem c10_envelope_round_trip :
    (∀ x : ChatSyncObj, ChatSyncObj.from_dict (ChatSyncObj.to_dict x) = x) ∧
    (∀ d : ChatSyncDict, d.player = none → (ChatSyncObj.from_dict d).player = none) := by
  constructor
  · intro x
    cases x
    rfl
  · intro d h
    simp [ChatSyncObj.from_dict, h]

/-- Witness for C10 at a concrete envelope with an absent player key. -/
theorem c10_envelope_round_trip_witness :
    (ChatSyncObj.from_dict ⟨4, "hub", none, "hello"⟩).player = none :=
  c10_envelope_round_trip.2 ⟨4, "hub", none, "hello"⟩ rfl

/-! ## Claim C1: echo avoidance -/

/-- Witness instance data is shared by several witnesses below. -/
def sampleLeafChatDict : ChatSyncDict :=
  ⟨0, "leafA", some (some "alice"), "hi all"⟩

/-- A broadcast of a fixed dict contributes nothing to the type-2
filter when that dict is not of type 2. -/
theorem filter_type2_map_const (l : List String) (d : ChatSyncDict)
    (h : d.type ≠ 2) :
    (l.map (fun cid => (cid, d))).filter (fun s => s.2.type == 2) = [] := by
  refine List.filter_eq_nil_iff.mpr ?_
  intro x hx
  rcases List.mem_map.mp hx with ⟨cid, _, rfl⟩
  simp [h]

/-- A broadcast of a fixed type-2 dict passes the type-2 filter
unchanged. -/
theorem filter_type2_map_const_self (l : List String) (d : ChatSyncDict)
    (h : d.type = 2) :
    (l.map (fun cid => (cid, d))).filter (fun s => s.2.type == 2) =
      l.map (fun cid => (cid, d)) := by
  refine List.filter_eq_self.mpr ?_
  intro x hx
  rcases List.mem_map.mp hx with ⟨cid, _, rfl⟩
  simp [h]

/-- For a non-empty excluded id the broadcast target list is exactly
the registry without that id. -/
theorem broadcastTargets_some (registry : List String) (C : String)
    (hC : C ≠ "") :
    broadcastTargets registry (some C) = registry.filter (fun cid => cid ≠ C) := by
  unfold broadcastTargets
  refine List.filter_congr ?_
  intro x _
  simp only [excludedBy, hC, if_neg, ite_false]
  rw [show (x == C) = decide (x = C) from rfl]
  rcases eq_or_ne x C with h | h
  · simp [h]
  · simp [h]

/-- Claim C1: when the hub receives a type-0 (LeafChat) dict from
connection `C` with `sync_mc_to_mc` enabled, the type-2 (PeerChat)
envelopes it puts on the wire go exactly to every registered client
except `C`, each carrying the rewrapped PeerChat payload. -/
theorem c1_echo_avoidance (cfg : ChatSyncConfig) (registry : List String)
    (localPlayerList : String) (d : ChatSyncDict) (C : String)
    (hmain : cfg.main_server = true) (hsync : cfg.sync_mc_to_mc = true)
    (htype : d.type = 0) (hC : C ≠ "") :
    (hubProcessChatSync cfg registry localPlayerList d C).filter
        (fun s => s.2.type == 2) =
      (registry.filter (fun cid => cid ≠ C)).map
        (fun cid => (cid, ChatSyncDict.mk 2 d.server_name (some (d.player.getD none)) d.message)) := by
  obtain ⟨main, mcmc, mcqq, sname⟩ := cfg
  simp only at hmain hsync
  subst hmain
  subst hsync
  have hobj : ChatSyncObj.from_dict d =
      ⟨0, d.server_name, d.player.getD none, d.message⟩ := by
    simp [ChatSyncObj.from_dict, htype]
  have heff : handleNetworkMessage ⟨true, true, mcqq, sname⟩
      (ChatSyncObj.from_dict d) C localPlayerList =
      [RouterEffect.showLocal ⟨0, d.server_name, d.player.getD none, d.message⟩ false,
       RouterEffect.netSend ⟨2, d.server_name, d.player.getD none, d.message⟩ (some C)] ++
      (if mcqq then
        [RouterEffect.qqForward ⟨0, d.server_name, d.player.getD none, d.message⟩ false]
       else []) := by
    rw [hobj]
    simp [handleNetworkMessage]
  unfold hubProcessChatSync
  rw [heff]
  unfold routerWireSends
  rw [List.filter_append]
  have htail :
      (if (⟨true, true, mcqq, sname⟩ : ChatSyncConfig).main_server && C != "main_server" then
        (broadcastTargets registry (some C)).map (fun cid => (cid, d))
       else []).filter (fun s => s.2.type == 2) = [] := by
    split
    · exact filter_type2_map_const _ _ (by omega)
    · rfl
  rw [htail, List.append_nil]
  cases mcqq with
  | false =>
      simp only [Bool.false_eq_true, ite_false, List.append_nil, List.flatMap_cons,
        List.flatMap_nil, List.append_nil, List.nil_append]
      unfold sendChatSyncWire
      simp only [ite_true, List.append_nil]
      rw [broadcastTargets_some registry C hC]
      exact filter_type2_map_const_self _ _ rfl
  | true =>
      simp only [ite_true, List.flatMap_append, List.flatMap_cons, List.flatMap_nil,
        List.append_nil, List.nil_append]
      unfold sendChatSyncWire
      simp only [ite_true, List.append_nil]
      rw [broadcastTargets_some registry C hC]
      exact filter_type2_map_const_self _ _ rfl

/-- Witness for C1 on a concrete registry of three leaves. -/
theorem c1_echo_avoidance_witness :
    (hubProcessChatSync ⟨true, true, false, "hub"⟩
        ["10.0.0.1:100", "10.0.0.2:200", "10.0.0.3:300"] "pl"
        sampleLeafChatDict "10.0.0.2:200").filter (fun s => s.2.type == 2) =
      (["10.0.0.1:100", "10.0.0.2:200", "10.0.0.3:300"].filter
          (fun cid => cid ≠ "10.0.0.2:200")).map
        (fun cid => (cid, ChatSyncDict.mk 2 "leafA" (some (some "alice")) "hi all")) :=
  c1_echo_avoidance ⟨true, true, false, "hub"⟩
    ["10.0.0.1:100", "10.0.0.2:200", "10.0.0.3:300"] "pl"
    sampleLeafChatDict "10.0.0.2:200" rfl rfl rfl (by decide)

/-! ## Claim C2: forwarding under a disabled relay toggle -/

/-- Claim C2 evaluation. With `sync_mc_to_mc` disabled (and QQ relay
disabled too), the hub receiving a LeafChat (type 0) dict from client
`10.0.0.1:100` still puts an envelope on the wire: the raw type-0 dict
is re-broadcast verbatim to the other registered client by the
unconditional forwarding step at the end of
`_handle_chat_sync_message`, and the router itself fires no effect at
all.  A leaf receiving that raw type-0 envelope triggers the code's
own role-violation error path. -/
theorem c2_disabled_toggle_still_rebroadcasts :
    hubProcessChatSync ⟨true, false, false, "hub"⟩
        ["10.0.0.1:100", "10.0.0.2:200"] "pl" sampleLeafChatDict "10.0.0.1:100" =
      [("10.0.0.2:200", sampleLeafChatDict)] ∧
    handleNetworkMessage ⟨true, false, false, "hub"⟩
        (ChatSyncObj.from_dict sampleLeafChatDict) "10.0.0.1:100" "pl" = [] ∧
    RouterEffect.logWrongRole ∈
      handleNetworkMessage ⟨false, true, true, "leafB"⟩
        (ChatSyncObj.from_dict sampleLeafChatDict) "main_server" "pl" := by
  refine ⟨by decide, by decide, by decide⟩

/-! ## Roster aggregation (`get_all_player_lists`, `src/chat_sync/utils.py` 42-116) -/

/-- Python `s[n:]` on a `str`: drop the first `n` code points. -/
def strDrop (s : String) (n : Nat) : String :=
  String.mk (s.data.drop n)

/-- Python `s.startswith(pre)`: code-point prefix test. -/
def strStartsWith (s pre : String) : Bool :=
  pre.data.isPrefixOf s.data

/-- Python dict assignment `responses[sender] = v`: replace in place if
the key is present (preserving its position), else append. -/
def insertReplace : List (String × String) → String → String → List (String × String)
  | [], k, v => [(k, v)]
  | (k0, v0) :: rest, k, v =>
    if k0 = k then (k0, v) :: rest else (k0, v0) :: insertReplace rest k v

/-- The temporary reply handler registered by `get_all_player_lists`:
accepts a type-6 envelope whose message starts with
`request_id + "|"` and records the remainder under the sender id. -/
def handle_player_list_response (requestId : String)
    (responses : List (String × String)) (d : ChatSyncDict) (senderId : String) :
    List (String × String) :=
  let obj := ChatSyncObj.from_dict d
  if obj.type == 6 && strStartsWith obj.message (requestId ++ "|") then
    insertReplace responses senderId (strDrop obj.message (requestId.length + 1))
  else responses

/-- The responses dictionary after the handler has seen, in order, all
`(dict, sender)` deliveries that occurred before the wait loop
returned. -/
def collectResponses (requestId : String) (events : List (ChatSyncDict × String)) :
    List (String × String) :=
  events.foldl (fun acc ev => handle_player_list_response requestId acc ev.1 ev.2) []

/-- The synthetic note `get_all_player_lists` appends when some
servers did not answer in time. -/
def timeoutSuffixMessage (missing : Nat) : String :=
  "---超时服务器---\n" ++ toString missing ++ "个服务器未在10秒内回复"

/-- The result assembly of `get_all_player_lists`: local roster, no
leaves connected shortcut, received replies, timeout note, joined by
blank lines.  `connections` is the snapshot of
`network_manager.client_connections` used both for the early return
and for `expected_responses`; `events` are the reply deliveries the
temporary handler saw before the wait loop exited. -/
def get_all_player_lists (mainServerList : String) (connections : List String)
    (requestId : String) (events : List (ChatSyncDict × String)) : String :=
  if connections = [] then mainServerList
  else
    let responses := collectResponses requestId events
    let expected := connections.length
    let allLists := mainServerList :: responses.map Prod.snd
    let allLists :=
      if responses.length < expected then
        allLists ++ [timeoutSuffixMessage (expected - responses.length)]
      else allLists
    String.intercalate "\n\n" allLists

/-! ## Claim C9: temporary handler cleanup -/

/-- Exit paths of the aggregation body: every leaf replied, the wait
timed out, or the body raised before the in-line removal ran. -/
inductive AggregationExit where
  | completed
  | timedOut
  | raised
deriving Repr, DecidableEq

/-- Evolution of `network_manager.message_handlers` across one
`get_all_player_lists` call, with handlers named by identity tokens:
registration appends the fresh handler; on the success and timeout
paths the in-line guarded removal runs, and on the exception path the
`except` block runs the same guarded removal. -/
def aggregationHandlerResult (handlers : List Nat) (h : Nat)
    (ex : AggregationExit) : List Nat :=
  let registered := handlers ++ [h]
  match ex with
  | AggregationExit.completed =>
      if registered.contains h then registered.erase h else registered
  | AggregationExit.timedOut =>
      if registered.contains h then registered.erase h else registered
  | AggregationExit.raised =>
      if registered.contains h then registered.erase h else registered

/-- Claim C9: for a fresh handler token (each call creates a new
closure object), every exit path of the aggregation restores the
handler list exactly, so the temporary handler is absent afterwards
and a late stray reply cannot invoke it. -/
theorem c9_handler_cleanup (handlers : List Nat) (h : Nat)
    (hfresh : h ∉ handlers) (ex : AggregationExit) :
    aggregationHandlerResult handlers h ex = handlers ∧
      h ∉ aggregationHandlerResult handlers h ex := by
  have hcont : (handlers ++ [h]).contains h = true := by
    simp [List.contains_iff_exists_mem_beq]
  have herase : (handlers ++ [h]).erase h = handlers := by
    rw [List.erase_append_right _ hfresh]
    simp
  cases ex <;> simp [aggregationHandlerResult, hcont, herase, hfresh]

/-- Witness for C9 on a concrete handler list. -/
theorem c9_handler_cleanup_witness :
    aggregationHandlerResult [5, 7] 9 AggregationExit.timedOut = [5, 7] :=
  (c9_handler_cleanup [5, 7] 9 (by decide) AggregationExit.timedOut).1

/-! ## String helper lemmas for the roster composite -/

/-- Appending after a fully-satisfying block: takeWhile passes the
block through. -/
theorem takeWhile_append_all {p : Char → Bool} (l1 l2 : List Char)
    (h : ∀ c ∈ l1, p c = true) :
    (l1 ++ l2).takeWhile p = l1 ++ l2.takeWhile p := by
  induction l1 with
  | nil => rfl
  | cons c t ih =>
    have hc : p c = true := h c (List.mem_cons_self c t)
    simp only [List.cons_append, List.takeWhile_cons, hc, ite_true]
    rw [ih (fun x hx => h x (List.mem_cons_of_mem c hx))]

/-- Appending after a fully-satisfying block: dropWhile skips the
block. -/
theorem dropWhile_append_all {p : Char → Bool} (l1 l2 : List Char)
    (h : ∀ c ∈ l1, p c = true) :
    (l1 ++ l2).dropWhile p = l2.dropWhile p := by
  induction l1 with
  | nil => rfl
  | cons c t ih =>
    have hc : p c = true := h c (List.mem_cons_self c t)
    simp only [List.cons_append, List.dropWhile_cons, hc, ite_true]
    exact ih (fun x hx => h x (List.mem_cons_of_mem c hx))

/-- Dropping the `id + "|"` head of a composite recovers the payload. -/
theorem strDrop_composite (r pl : String) :
    strDrop (r ++ "|" ++ pl) (r.length + 1) = pl := by
  unfold strDrop
  rw [String.data_append, String.data_append]
  have hlen : (r.data ++ String.data "|").length = r.length + 1 := by
    rw [show String.data "|" = ['|'] from rfl, List.length_append,
      show r.length = r.data.length from rfl]
    rfl
  rw [← hlen, List.drop_left]

/-- A string starts with any string it extends. -/
theorem strStartsWith_append (a b : String) : strStartsWith (a ++ b) a = true := by
  unfold strStartsWith
  rw [String.data_append]
  exact List.isPrefixOf_iff_prefix.mpr (List.prefix_append _ _)

/-! ## Claim C8: roster reply composite -/

/-- Hub-side description of the composite body: the prefix up to the
first `|` and the remainder after it. -/
def splitFirstBar (s : String) : String × String :=
  (String.mk (s.data.takeWhile (fun c => c != '|')),
   String.mk ((s.data.dropWhile (fun c => c != '|')).drop 1))

/-- Claim C8: a leaf receiving a RosterQuery (type 5) with correlation
id `r` fires exactly one action, a RosterReply (type 6) whose message
is `r ++ "|" ++ rosterText`; splitting that composite at the first `|`
recovers `(r, rosterText)`, and the hub-side temporary handler stores
exactly the rosterText under the sender id. -/
theorem c8_roster_reply_composite (cfg : ChatSyncConfig) (obj : ChatSyncObj)
    (senderId localPlayerList r : String)
    (hmain : cfg.main_server = false) (htype : obj.type = 5)
    (hmsg : obj.message = r) (hbar : Char.ofNat 124 ∉ r.data) :
    handleNetworkMessage cfg obj senderId localPlayerList =
      [RouterEffect.netSend ⟨6, cfg.mc_server_name, none, r ++ "|" ++ localPlayerList⟩ none] ∧
    splitFirstBar (r ++ "|" ++ localPlayerList) = (r, localPlayerList) ∧
    handle_player_list_response r []
        (ChatSyncObj.to_dict ⟨6, cfg.mc_server_name, none, r ++ "|" ++ localPlayerList⟩)
        senderId =
      [(senderId, localPlayerList)] := by
  have hbarchar : Char.ofNat 124 = '|' := by decide
  rw [hbarchar] at hbar
  refine ⟨?_, ?_, ?_⟩
  · subst hmsg
    simp [handleNetworkMessage, htype, hmain]
  · unfold splitFirstBar
    rw [String.data_append, String.data_append]
    have hdata : String.data "|" = ['|'] := rfl
    rw [hdata, List.append_assoc]
    have hall : ∀ c ∈ r.data, (c != '|') = true := by
      intro c hc
      have : c ≠ '|' := by
        intro he
        exact hbar (he ▸ hc)
      simp [this]
    rw [takeWhile_append_all _ _ hall, dropWhile_append_all _ _ hall]
    rw [List.singleton_append]
    have ht : List.takeWhile (fun c => c != '|') ('|' :: localPlayerList.data) = [] := rfl
    have hd : List.dropWhile (fun c => c != '|') ('|' :: localPlayerList.data) =
        '|' :: localPlayerList.data := rfl
    rw [ht, hd, List.append_nil,
      show List.drop 1 ('|' :: localPlayerList.data) = localPlayerList.data from rfl]
  · unfold handle_player_list_response
    have hfd : ChatSyncObj.from_dict
        (ChatSyncObj.to_dict ⟨6, cfg.mc_server_name, none, r ++ "|" ++ localPlayerList⟩) =
        ⟨6, cfg.mc_server_name, none, r ++ "|" ++ localPlayerList⟩ := rfl
    rw [hfd]
    have hsw : strStartsWith (r ++ "|" ++ localPlayerList) (r ++ "|") = true :=
      strStartsWith_append (r ++ "|") localPlayerList
    simp only [hsw, beq_self_eq_true, Bool.and_self, ite_true]
    rw [strDrop_composite]
    rfl

/-- Witness for C8 on a concrete query. -/
theorem c8_roster_reply_composite_witness :
    handleNetworkMessage ⟨false, true, true, "leafB"⟩ ⟨5, "hub", none, "req_1"⟩
        "main_server" "---leafB---\nbob" =
      [RouterEffect.netSend
        ⟨6, "leafB", none, "req_1" ++ "|" ++ "---leafB---\nbob"⟩ none] :=
  (c8_roster_reply_composite ⟨false, true, true, "leafB"⟩ ⟨5, "hub", none, "req_1"⟩
    "main_server" "---leafB---\nbob" "req_1" rfl rfl rfl (by decide)).1

/-! ## Claim C5: aggregation partial result -/

/-- Assigning a key not yet present appends the pair at the end. -/
theorem insertReplace_of_not_mem (acc : List (String × String)) (k v : String)
    (h : ∀ e ∈ acc, e.1 ≠ k) :
    insertReplace acc k v = acc ++ [(k, v)] := by
  induction acc with
  | nil => rfl
  | cons e rest ih =>
    have he : e.1 ≠ k := h e (List.mem_cons_self e rest)
    obtain ⟨k0, v0⟩ := e
    simp only [insertReplace, he, ite_false, if_neg]
    rw [ih (fun x hx => h x (List.mem_cons_of_mem _ hx))]
    rfl

/-- The deliveries seen by the temporary handler when `replies` leaves
each send one well-formed RosterReply for correlation id `rid`:
sender `kv.1` delivers the dict of a type-6 envelope whose message is
`rid ++ "|" ++ kv.2`. -/
def wellFormedReplyEvents (rid sname : String) (replies : List (String × String)) :
    List (ChatSyncDict × String) :=
  replies.map (fun kv => (ChatSyncObj.to_dict ⟨6, sname, none, rid ++ "|" ++ kv.2⟩, kv.1))

/-- Folding the handler over well-formed replies from senders not yet
recorded extends the responses dictionary in delivery order. -/
theorem collect_wellformed_aux (rid sname : String)
    (replies : List (String × String)) (acc : List (String × String))
    (hnd : (replies.map Prod.fst).Nodup)
    (hdis : ∀ kv ∈ replies, ∀ e ∈ acc, e.1 ≠ kv.1) :
    (wellFormedReplyEvents rid sname replies).foldl
      (fun a ev => handle_player_list_response rid a ev.1 ev.2) acc = acc ++ replies := by
  induction replies generalizing acc with
  | nil => simp [wellFormedReplyEvents]
  | cons kv rest ih =>
    obtain ⟨k, v⟩ := kv
    have hstep : handle_player_list_response rid acc
        (ChatSyncObj.to_dict ⟨6, sname, none, rid ++ "|" ++ v⟩) k = acc ++ [(k, v)] := by
      unfold handle_player_list_response
      have hfd : ChatSyncObj.from_dict
          (ChatSyncObj.to_dict ⟨6, sname, none, rid ++ "|" ++ v⟩) =
          ⟨6, sname, none, rid ++ "|" ++ v⟩ := rfl
      rw [hfd]
      have hsw : strStartsWith (rid ++ "|" ++ v) (rid ++ "|") = true :=
        strStartsWith_append (rid ++ "|") v
      simp only [hsw, beq_self_eq_true, Bool.and_self, ite_true]
      rw [strDrop_composite]
      exact insertReplace_of_not_mem acc k v
        (fun e he => hdis (k, v) (List.mem_cons_self _ _) e he)
    simp only [wellFormedReplyEvents, List.map_cons, List.foldl_cons]
    rw [hstep]
    have hnd2 : (rest.map Prod.fst).Nodup := (List.nodup_cons.mp hnd).2
    have hknotin : k ∉ rest.map Prod.fst := (List.nodup_cons.mp hnd).1
    have hdis2 : ∀ kv2 ∈ rest, ∀ e ∈ acc ++ [(k, v)], e.1 ≠ kv2.1 := by
      intro kv2 hkv2 e he
      rcases List.mem_append.mp he with he2 | he2
      · exact hdis kv2 (List.mem_cons_of_mem _ hkv2) e he2
      · rcases List.mem_singleton.mp he2 with rfl
        intro hk
        apply hknotin
        rw [show k = kv2.1 from hk]
        exact List.mem_map_of_mem Prod.fst hkv2
    have := ih (acc ++ [(k, v)]) hnd2 hdis2
    unfold wellFormedReplyEvents at this
    rw [this, List.append_assoc]
    rfl

/-- Claim C5: on the hub with a non-empty connection snapshot, when `k`
leaves (with distinct sender ids) each delivered one well-formed reply
before the wait ended and `k` is smaller than the snapshot size `n`,
the produced string is the local roster first, then the `k` received
rosters, then a synthetic timed-out note counting the `n - k`
non-responders, joined by blank lines — a partial result, not a
failure. -/
theorem c5_aggregation_incomplete (mainList : String) (connections : List String)
    (rid sname : String) (replies : List (String × String))
    (h1 : connections ≠ [])
    (hnd : (replies.map Prod.fst).Nodup)
    (h2 : replies.length < connections.length) :
    collectResponses rid (wellFormedReplyEvents rid sname replies) = replies ∧
    get_all_player_lists mainList connections rid (wellFormedReplyEvents rid sname replies) =
      String.intercalate "\n\n"
        (mainList :: (replies.map Prod.snd ++
          [timeoutSuffixMessage (connections.length - replies.length)])) := by
  have hcoll : collectResponses rid (wellFormedReplyEvents rid sname replies) = replies := by
    unfold collectResponses
    have := collect_wellformed_aux rid sname replies [] hnd (by intro kv _ e he; cases he)
    rw [this]
    rfl
  refine ⟨hcoll, ?_⟩
  unfold get_all_player_lists
  rw [if_neg h1]
  simp only [hcoll, h2, ite_true]
  rw [List.cons_append]

/-- Witness for C5: three connected leaves, two replies. -/
theorem c5_aggregation_incomplete_witness :
    get_all_player_lists "---hub---\nalice" ["10.0.0.1:100", "10.0.0.2:200", "10.0.0.3:300"]
        "req_9"
        (wellFormedReplyEvents "req_9" "leafname"
          [("10.0.0.1:100", "---A---\nbob"), ("10.0.0.2:200", "---B---")]) =
      String.intercalate "\n\n"
        ("---hub---\nalice" ::
          ((["---A---\nbob", "---B---"] : List String) ++ [timeoutSuffixMessage 1])) := by
  have h := (c5_aggregation_incomplete "---hub---\nalice"
    ["10.0.0.1:100", "10.0.0.2:200", "10.0.0.3:300"]
    "req_9" "leafname" [("10.0.0.1:100", "---A---\nbob"), ("10.0.0.2:200", "---B---")]
    (by decide) (by decide) (by decide)).2
  rw [h]
  rfl

/-! ## Claim C6: leaf reconnect cadence (`_client_loop`, `network.py` 217-245) -/

/-- Environment of the leaf loop: the outcome of the i-th
connect-and-authenticate attempt, and whether the i-th receive
observes closure (or raises). -/
structure ClientEnv where
  connectOk : Nat → Bool
  recvClosed : Nat → Bool

/-- Leaf loop state: `is_connected`, whether `client_socket` is set,
the abstract clock (advanced only by `time.sleep(5)`), and cursors
into the two environment streams. -/
structure ClientState where
  isConnected : Bool
  hasSocket : Bool
  clock : Nat
  attemptCount : Nat
  recvCount : Nat
deriving Repr, DecidableEq

/-- Observable events of the leaf loop, stamped with the clock. -/
inductive ClientEvent where
  | connectAttempt (t : Nat) (ok : Bool)
  | disconnected (t : Nat)
  | received (t : Nat)
  | sleepFive (t : Nat)
deriving Repr, DecidableEq

/-- One iteration of the `while not should_stop` body of
`_client_loop`: if not connected, call `_connect_to_server` (which on
failure leaves the socket unset); then, if connected with a socket,
perform one receive — `None` or an exception clears `is_connected` —
otherwise `time.sleep(5)`. -/
def clientStep (env : ClientEnv) (s : ClientState) : ClientState × List ClientEvent :=
  let s1 :=
    if !s.isConnected then
      let ok := env.connectOk s.attemptCount
      { s with isConnected := ok, hasSocket := ok, attemptCount := s.attemptCount + 1 }
    else s
  let evs1 : List ClientEvent :=
    if !s.isConnected then [ClientEvent.connectAttempt s.clock (env.connectOk s.attemptCount)]
    else []
  if s1.isConnected && s1.hasSocket then
    if env.recvClosed s1.recvCount then
      ({ s1 with isConnected := false, recvCount := s1.recvCount + 1 },
       evs1 ++ [ClientEvent.disconnected s1.clock])
    else
      ({ s1 with recvCount := s1.recvCount + 1 },
       evs1 ++ [ClientEvent.received s1.clock])
  else
    ({ s1 with clock := s1.clock + 5 }, evs1 ++ [ClientEvent.sleepFive s1.clock])

/-- The event trace of `fuel` iterations of the leaf loop. -/
def clientRun (env : ClientEnv) : Nat → ClientState → List ClientEvent
  | 0, _ => []
  | fuel + 1, s =>
    (clientStep env s).2 ++ clientRun env fuel (clientStep env s).1

/-- The time of the first connection attempt in a trace, if any. -/
def nextAttemptTime : List ClientEvent → Option Nat
  | [] => none
  | ClientEvent.connectAttempt t _ :: _ => some t
  | _ :: rest => nextAttemptTime rest

/-- The property claimed by the spec: after every disconnection, the
next connection attempt happens no earlier than 5 time units later. -/
def reconnectDelayRespected : List ClientEvent → Bool
  | [] => true
  | ClientEvent.disconnected t :: rest =>
    (match nextAttemptTime rest with
     | some t2 => decide (t + 5 ≤ t2)
     | none => true) && reconnectDelayRespected rest
  | _ :: rest => reconnectDelayRespected rest

/-- Counterexample for C6 as stated: a connected leaf whose peer
closes the connection at clock 0 attempts to reconnect at clock 0 —
immediately, with no 5-unit delay before the first attempt (the sleep
only happens after a failed attempt). -/
theorem c6_reconnect_counterexample :
    clientRun ⟨fun _ => false, fun _ => true⟩ 2 ⟨true, true, 0, 0, 0⟩ =
      [ClientEvent.disconnected 0, ClientEvent.connectAttempt 0 false,
       ClientEvent.sleepFive 0] ∧
    reconnectDelayRespected
      (clientRun ⟨fun _ => false, fun _ => true⟩ 2 ⟨true, true, 0, 0, 0⟩) = false := by
  constructor
  · rfl
  · rfl

/-- While connection attempts keep failing, the loop from a
disconnected state produces an attempt every 5 time units. -/
theorem clientRun_fail_loop (env : ClientEnv)
    (hfail : ∀ i, env.connectOk i = false) (fuel : Nat) :
    ∀ c a r sock, clientRun env fuel ⟨false, sock, c, a, r⟩ =
      (List.range fuel).flatMap
        (fun i => [ClientEvent.connectAttempt (c + 5 * i) false,
                   ClientEvent.sleepFive (c + 5 * i)]) := by
  induction fuel with
  | zero => intro c a r sock; rfl
  | succ n ih =>
    intro c a r sock
    have hstep : clientStep env ⟨false, sock, c, a, r⟩ =
        (⟨false, false, c + 5, a + 1, r⟩,
         [ClientEvent.connectAttempt c false, ClientEvent.sleepFive c]) := by
      simp [clientStep, hfail a]
    rw [clientRun, hstep]
    simp only
    rw [ih (c + 5) (a + 1) r false]
    rw [List.range_succ_eq_map, List.flatMap_cons, List.flatMap_map]
    have harith : (fun i => [ClientEvent.connectAttempt (c + 5 * Nat.succ i) false,
        ClientEvent.sleepFive (c + 5 * Nat.succ i)]) =
        (fun i => [ClientEvent.connectAttempt (c + 5 + 5 * i) false,
        ClientEvent.sleepFive (c + 5 + 5 * i)]) := by
      funext i
      have h2 : c + 5 * Nat.succ i = c + 5 + 5 * i := by omega
      rw [h2]
    rw [harith]
    norm_num

/-- Amended claim C6: after its connection is closed at clock `c`, the
leaf attempts to reconnect immediately (at clock `c`, with no delay);
thereafter, as long as attempts fail, one new attempt occurs every 5
time units, indefinitely (no backoff, no cap); and a successful
attempt ends the retry cycle by entering the connected receive state
within the same iteration. -/
theorem c6_reconnect_amended (env : ClientEnv)
    (hfail : ∀ i, env.connectOk i = false)
    (c a r : Nat) (hclosed : env.recvClosed r = true) (n : Nat) :
    clientRun env (n + 1) ⟨true, true, c, a, r⟩ =
      ClientEvent.disconnected c ::
        (List.range n).flatMap
          (fun i => [ClientEvent.connectAttempt (c + 5 * i) false,
                     ClientEvent.sleepFive (c + 5 * i)]) ∧
    (∀ env2 : ClientEnv, ∀ sock c2 a2 r2, env2.connectOk a2 = true →
      env2.recvClosed r2 = false →
      clientStep env2 ⟨false, sock, c2, a2, r2⟩ =
        (⟨true, true, c2, a2 + 1, r2 + 1⟩,
         [ClientEvent.connectAttempt c2 true, ClientEvent.received c2])) := by
  constructor
  · have hstep : clientStep env ⟨true, true, c, a, r⟩ =
        (⟨false, true, c, a, r + 1⟩, [ClientEvent.disconnected c]) := by
      simp [clientStep, hclosed]
    rw [clientRun, hstep]
    simp only
    rw [clientRun_fail_loop env hfail n c a (r + 1) true]
    rfl
  · intro env2 sock c2 a2 r2 hok hrecv
    simp [clientStep, hok, hrecv]

/-- Witness for C6 amended: concrete always-failing environment, three
iterations after the disconnect at clock 7. -/
theorem c6_reconnect_amended_witness :
    clientRun ⟨fun _ => false, fun _ => true⟩ 3 ⟨true, true, 7, 0, 0⟩ =
      ClientEvent.disconnected 7 ::
        (List.range 2).flatMap
          (fun i => [ClientEvent.connectAttempt (7 + 5 * i) false,
                     ClientEvent.sleepFive (7 + 5 * i)]) :=
  (c6_reconnect_amended ⟨fun _ => false, fun _ => true⟩ (fun _ => rfl) 7 0 0 rfl 2).1

/-! ## JSON values on the wire

The payloads this program serializes with `json.dumps(data,
ensure_ascii=False)` are Python values: null, bool, int, float, str,
list and string-keyed dict.  Members and elements keep insertion
order, as Python dicts and lists do; a dict parsed from duplicated
keys keeps all bindings in order and `dictGet` reads the last one, as
`json.loads` does.

A finite Python float is modelled by the decimal literal `repr`
produces for it.  CPython guarantees `float(repr(x)) == x` and `repr`
is injective on doubles, so finite binary64 floats are in bijection
with their shortest-repr literals; the model computes on those
literals (sign, integer part, fraction digits, exponent).  The one
floating-point step that a shallow embedding cannot express is the
rounding of a NON-canonical decimal literal (such as `1.50`) to a
double; `jsonLoads` keeps the literal it parsed instead of
normalizing it.  On the round-trip path (dumps then loads) only
canonical literals occur, where the two semantics agree. -/

/-- The decimal literal of a finite float: optional minus, integer
part (printed without leading zeros, as `repr` does), optional
fraction digits after the dot, optional signed exponent.  Well-formed
literals (see `floatLitWfB`) have a fraction or an exponent — a bare
integer literal is an int in Python — and digit lists hold digits. -/
structure FloatLit where
  neg : Bool
  intPart : Nat
  frac : Option (List Nat)
  exp : Option (Bool × Nat)
deriving Repr, DecidableEq

/-- A Python float on this wire: a finite value (by its repr
literal), or one of the non-finite values `json.dumps` writes as
`NaN`, `Infinity` and `-Infinity`. -/
inductive PyFloat where
  | finite (lit : FloatLit)
  | nan
  | inf
  | ninf
deriving Repr, DecidableEq

/-- Well-formedness of a finite float literal: it has a fraction or
an exponent part, and the fraction is a non-empty digit list.  The
repr of every finite double satisfies this. -/
def floatLitWfB (f : FloatLit) : Bool :=
  (f.frac.isSome || f.exp.isSome) &&
  (match f.frac with
   | none => true
   | some ds => !ds.isEmpty && ds.all (fun d => d < 10))

mutual
inductive JsonVal where
  | null
  | bool (b : Bool)
  | num (n : Int)
  | flt (f : PyFloat)
  | str (s : String)
  | arr (elems : JsonElems)
  | obj (members : JsonMembers)
deriving Repr, DecidableEq
inductive JsonElems where
  | nil
  | cons (val : JsonVal) (rest : JsonElems)
deriving Repr, DecidableEq
inductive JsonMembers where
  | nil
  | cons (key : String) (val : JsonVal) (rest : JsonMembers)
deriving Repr, DecidableEq
end

mutual
/-- Every float literal in the value is well-formed. -/
def jsonWfVal : JsonVal → Bool
  | JsonVal.flt (PyFloat.finite f) => floatLitWfB f
  | JsonVal.arr es => jsonWfElems es
  | JsonVal.obj ms => jsonWfMembers ms
  | _ => true
/-- Well-formedness through array elements. -/
def jsonWfElems : JsonElems → Bool
  | JsonElems.nil => true
  | JsonElems.cons v rest => jsonWfVal v && jsonWfElems rest
/-- Well-formedness through dict members. -/
def jsonWfMembers : JsonMembers → Bool
  | JsonMembers.nil => true
  | JsonMembers.cons _ v rest => jsonWfVal v && jsonWfMembers rest
end

/-- Lookup of `d.get(key)` on a dict built or parsed with these
members: the last binding of a duplicated key wins, as in Python. -/
def dictGet : JsonMembers → String → Option JsonVal
  | JsonMembers.nil, _ => none
  | JsonMembers.cons k v rest, key =>
    match dictGet rest key with
    | some r => some r
    | none => if k = key then some v else none

/-! ### Characters needing escape-aware handling -/

/-- The double-quote character. -/
def quoteChar : Char := Char.ofNat 34

/-- The backslash character. -/
def backslashChar : Char := Char.ofNat 92

/-- The opening curly bracket. -/
def openBraceChar : Char := Char.ofNat 123

/-- The closing curly bracket. -/
def closeBraceChar : Char := Char.ofNat 125

/-- Decimal digit characters. -/
def digitChar : Nat → Char
  | 0 => '0'
  | 1 => '1'
  | 2 => '2'
  | 3 => '3'
  | 4 => '4'
  | 5 => '5'
  | 6 => '6'
  | 7 => '7'
  | 8 => '8'
  | _ => '9'

/-- Lowercase hexadecimal digit characters, as CPython's escaper
emits them. -/
def hexDigitChar : Nat → Char
  | 0 => '0'
  | 1 => '1'
  | 2 => '2'
  | 3 => '3'
  | 4 => '4'
  | 5 => '5'
  | 6 => '6'
  | 7 => '7'
  | 8 => '8'
  | 9 => '9'
  | 10 => 'a'
  | 11 => 'b'
  | 12 => 'c'
  | 13 => 'd'
  | 14 => 'e'
  | _ => 'f'

/-- Decimal digit run of a positive natural, most significant first;
the fuel bounds the number of divisions and any fuel of at least `n`
is exact. -/
def natToCharsAux : Nat → Nat → List Char
  | 0, _ => []
  | fuel + 1, n => if n = 0 then [] else natToCharsAux fuel (n / 10) ++ [digitChar (n % 10)]

/-- Decimal digit run of a natural, most significant first. -/
def natToChars (n : Nat) : List Char :=
  if n = 0 then ['0'] else natToCharsAux n n

/-- Python `repr` of an int as json.dumps prints it. -/
def intToChars (n : Int) : List Char :=
  if n < 0 then '-' :: natToChars n.natAbs else natToChars n.toNat

/-- The fuelled digit printer agrees with the base-10 digit
expansion whenever the fuel is at least the number printed. -/
theorem natToCharsAux_eq_digits (fuel : Nat) : ∀ n : Nat, n ≤ fuel →
    natToCharsAux fuel n = (Nat.digits 10 n).reverse.map digitChar := by
  induction fuel with
  | zero =>
    intro n h
    have h0 : n = 0 := by omega
    subst h0
    simp [natToCharsAux]
  | succ f ih =>
    intro n h
    by_cases h0 : n = 0
    · subst h0
      simp [natToCharsAux]
    · simp only [natToCharsAux, h0, ite_false, if_neg]
      rw [ih (n / 10) (by omega)]
      rw [Nat.digits_def' (by norm_num : (1 : Nat) < 10) (by omega : 0 < n)]
      simp [List.reverse_cons, List.map_append]

/-- The digit printer in terms of the base-10 digit expansion. -/
theorem natToChars_eq_digits (n : Nat) :
    natToChars n = if n = 0 then ['0'] else (Nat.digits 10 n).reverse.map digitChar := by
  unfold natToChars
  by_cases h0 : n = 0
  · simp [h0]
  · rw [if_neg h0, if_neg h0]
    exact natToCharsAux_eq_digits n n (le_refl n)

/-- CPython `py_encode_basestring` (ensure_ascii=False): escape the
quote, the backslash, the five short control escapes, and any other
control character below 0x20 as a `\u00xx` sequence; everything else
passes through raw. -/
def escapeChar (c : Char) : List Char :=
  if c = quoteChar then [backslashChar, quoteChar]
  else if c = backslashChar then [backslashChar, backslashChar]
  else if c = Char.ofNat 8 then [backslashChar, 'b']
  else if c = Char.ofNat 9 then [backslashChar, 't']
  else if c = Char.ofNat 10 then [backslashChar, 'n']
  else if c = Char.ofNat 12 then [backslashChar, 'f']
  else if c = Char.ofNat 13 then [backslashChar, 'r']
  else if c.toNat < 32 then
    [backslashChar, 'u', '0', '0', hexDigitChar (c.toNat / 16), hexDigitChar (c.toNat % 16)]
  else [c]

/-- Serialized string literal: quote, escaped body, quote. -/
def dumpsStrChars (s : String) : List Char :=
  quoteChar :: (s.data.flatMap escapeChar ++ [quoteChar])

/-- Exponent digits as `repr` prints them: at least two, zero-padded
(`1e-05`, `1e+16`). -/
def expDigitsChars (e : Nat) : List Char :=
  if e < 10 then ['0', digitChar e] else natToChars e

/-- The printed fraction part: nothing, or a dot and the digits. -/
def fracCharsOf : Option (List Nat) → List Char
  | none => []
  | some ds => '.' :: ds.map digitChar

/-- The printed exponent part: nothing, or `e`, the sign and the
(zero-padded) digits. -/
def expCharsOf : Option (Bool × Nat) → List Char
  | none => []
  | some (en, e) => 'e' :: (if en then '-' else '+') :: expDigitsChars e

/-- The characters of a float as `json.dumps` prints one: the repr
literal of a finite double, or the `NaN` / `Infinity` / `-Infinity`
spellings. -/
def dumpsFloat : PyFloat → List Char
  | PyFloat.nan => ['N', 'a', 'N']
  | PyFloat.inf => ['I', 'n', 'f', 'i', 'n', 'i', 't', 'y']
  | PyFloat.ninf => '-' :: ['I', 'n', 'f', 'i', 'n', 'i', 't', 'y']
  | PyFloat.finite f =>
    (if f.neg then ['-'] else []) ++ natToChars f.intPart ++
      fracCharsOf f.frac ++ expCharsOf f.exp

mutual
/-- json.dumps with default separators: `", "` between members or
elements and `": "` after a key. -/
def dumpsVal : JsonVal → List Char
  | JsonVal.null => ['n', 'u', 'l', 'l']
  | JsonVal.bool true => ['t', 'r', 'u', 'e']
  | JsonVal.bool false => ['f', 'a', 'l', 's', 'e']
  | JsonVal.num n => intToChars n
  | JsonVal.flt f => dumpsFloat f
  | JsonVal.str s => dumpsStrChars s
  | JsonVal.arr es => '[' :: (dumpsElemsTop es ++ [']'])
  | JsonVal.obj ms => openBraceChar :: (dumpsMembersTop ms ++ [closeBraceChar])
/-- Element list without the surrounding brackets. -/
def dumpsElemsTop : JsonElems → List Char
  | JsonElems.nil => []
  | JsonElems.cons v rest => dumpsVal v ++ dumpsElemsRest rest
/-- Elements after the first, each preceded by `", "`. -/
def dumpsElemsRest : JsonElems → List Char
  | JsonElems.nil => []
  | JsonElems.cons v rest => ',' :: ' ' :: (dumpsVal v ++ dumpsElemsRest rest)
/-- Member list without the surrounding braces. -/
def dumpsMembersTop : JsonMembers → List Char
  | JsonMembers.nil => []
  | JsonMembers.cons k v rest =>
    (dumpsStrChars k ++ (':' :: ' ' :: dumpsVal v)) ++ dumpsMembersRest rest
/-- Members after the first, each preceded by `", "`. -/
def dumpsMembersRest : JsonMembers → List Char
  | JsonMembers.nil => []
  | JsonMembers.cons k v rest =>
    ',' :: ' ' :: ((dumpsStrChars k ++ (':' :: ' ' :: dumpsVal v)) ++ dumpsMembersRest rest)
end

/-- One `"key": value` member. -/
def dumpsMember (k : String) (v : JsonVal) : List Char :=
  dumpsStrChars k ++ (':' :: ' ' :: dumpsVal v)

/-- The serialized form as a string, the output of `json.dumps`. -/
def jsonDumps (v : JsonVal) : String :=
  String.mk (dumpsVal v)

/-! ### The parser, modelling `json.loads` (CPython `json/decoder.py`
and `json/scanner.py`): the full value grammar with objects, arrays,
strings (including surrogate-pair escapes), ints, floats and the
`NaN` / `Infinity` / `-Infinity` extensions.  Strings whose escapes
denote a lone surrogate — which `json.loads` turns into a
non-Unicode `str` that a Lean `String` cannot hold — are the one
place the model reports failure where CPython builds a value; no
payload of this program contains them. -/

/-- JSON whitespace. -/
def isWsChar (c : Char) : Bool :=
  c = ' ' || c = Char.ofNat 9 || c = Char.ofNat 10 || c = Char.ofNat 13

/-- Skip leading whitespace. -/
def skipWs (s : List Char) : List Char :=
  s.dropWhile isWsChar

/-- Decimal digit test. -/
def isDigitChar (c : Char) : Bool :=
  48 ≤ c.toNat && c.toNat ≤ 57

/-- Value of a decimal digit character. -/
def digitVal (c : Char) : Nat :=
  c.toNat - 48

/-- Value of a hexadecimal digit character. -/
def hexVal (c : Char) : Option Nat :=
  if isDigitChar c then some (c.toNat - 48)
  else if 97 ≤ c.toNat && c.toNat ≤ 102 then some (c.toNat - 87)
  else if 65 ≤ c.toNat && c.toNat ≤ 70 then some (c.toNat - 55)
  else none

/-- A Unicode scalar value (what a Lean `Char` can hold; `json.loads`
additionally tolerates lone surrogates, which this program never
emits). -/
def isValidScalar (n : Nat) : Bool :=
  n < 55296 || (57344 ≤ n && n < 1114112)

/-- Maximal run of decimal digits, accumulating left to right. -/
def parseDigitRun : List Char → Nat → Nat × List Char
  | [], acc => (acc, [])
  | c :: t, acc =>
    if isDigitChar c then parseDigitRun t (acc * 10 + digitVal c) else (acc, c :: t)

/-- Maximal run of decimal digits as a digit list. -/
def parseDigitList : List Char → List Nat × List Char
  | [] => ([], [])
  | c :: t =>
    if isDigitChar c then
      let p := parseDigitList t
      (digitVal c :: p.1, p.2)
    else ([], c :: t)

/-- The integer group of the scanner's `NUMBER_RE`, `(0|[1-9]\d*)`:
a single `0`, or a nonzero digit followed by a maximal digit run — a
leading zero is never followed by further digits, exactly as the
regex alternation behaves. -/
def parseIntPart : List Char → Option (Nat × List Char)
  | [] => none
  | c :: t =>
    if c = '0' then some (0, t)
    else if isDigitChar c then some (parseDigitRun t (digitVal c))
    else none

/-- The optional fraction group `(\.\d+)?`: a dot with at least one
digit following; anything else leaves the input untouched (the regex
group simply fails to participate). -/
def parseFracPart (s : List Char) : Option (List Nat) × List Char :=
  match s with
  | c :: d :: t =>
    if c = '.' && isDigitChar d then
      let p := parseDigitList t
      (some (digitVal d :: p.1), p.2)
    else (none, s)
  | _ => (none, s)

/-- The optional exponent group `([eE][-+]?\d+)?`: `e` or `E`, an
optional sign, at least one digit; an incomplete group leaves the
input untouched. -/
def parseExpPart (s : List Char) : Option (Bool × Nat) × List Char :=
  match s with
  | c :: t =>
    if c = 'e' || c = 'E' then
      match t with
      | d :: t2 =>
        if isDigitChar d then
          let p := parseDigitRun t2 (digitVal d)
          (some (false, p.1), p.2)
        else if d = '-' || d = '+' then
          match t2 with
          | d2 :: t3 =>
            if isDigitChar d2 then
              let p := parseDigitRun t3 (digitVal d2)
              (some (d = '-', p.1), p.2)
            else (none, s)
          | [] => (none, s)
        else (none, s)
      | [] => (none, s)
    else (none, s)
  | [] => (none, s)

/-- The number token after the optional sign: integer group, then the
fraction and exponent groups; with neither group present the scanner
calls `parse_int`, otherwise `parse_float` on the matched literal. -/
def parseNumBody (neg : Bool) (s : List Char) : Option (JsonVal × List Char) :=
  match parseIntPart s with
  | none => none
  | some (ip, r1) =>
    let pf := parseFracPart r1
    let pe := parseExpPart pf.2
    if pf.1.isSome || pe.1.isSome then
      some (JsonVal.flt (PyFloat.finite ⟨neg, ip, pf.1, pe.1⟩), pe.2)
    else
      some (JsonVal.num (if neg then -(ip : Int) else (ip : Int)), pe.2)

/-- The full `NUMBER_RE` token including the optional leading minus. -/
def parseNumberToken (s : List Char) : Option (JsonVal × List Char) :=
  match s with
  | c :: t => if c = '-' then parseNumBody true t else parseNumBody false (c :: t)
  | [] => none

/-- A fixed literal token after its dispatch character, compared and
consumed as the scanner's slice comparisons
(`string[idx:idx + 4] == 'null'` and the like) do. -/
def litTok (lit : List Char) (v : JsonVal) (t : List Char) :
    Option (JsonVal × List Char) :=
  if t.take lit.length = lit then some (v, t.drop lit.length) else none

/-- Short escape sequences accepted after a backslash. -/
def simpleUnescape (e : Char) : Option Char :=
  if e = quoteChar then some quoteChar
  else if e = backslashChar then some backslashChar
  else if e = '/' then some '/'
  else if e = 'b' then some (Char.ofNat 8)
  else if e = 'f' then some (Char.ofNat 12)
  else if e = 'n' then some (Char.ofNat 10)
  else if e = 'r' then some (Char.ofNat 13)
  else if e = 't' then some (Char.ofNat 9)
  else none

/-- The value of a `\uXXXX` escape that is a low surrogate, as
checked by `py_scanstring` after a high surrogate. -/
def lowSurrogateVal (b1 u1 g1 g2 g3 g4 : Char) : Option Nat :=
  if b1 = backslashChar && u1 = 'u' then
    match hexVal g1, hexVal g2, hexVal g3, hexVal g4 with
    | some a, some b, some c, some d =>
      let code2 := ((a * 16 + b) * 16 + c) * 16 + d
      if 56320 ≤ code2 && code2 < 57344 then some code2 else none
    | _, _, _, _ => none
  else none

/-- `0x10000 + (((uni - 0xd800) << 10) | (uni2 - 0xdc00))`. -/
def combineSurrogates (hi lo : Nat) : Nat :=
  65536 + (hi - 55296) * 1024 + (lo - 56320)

/-- One `\uXXXX` escape, given its four hex characters and the input
following them: a non-surrogate code is the scalar itself; a high
surrogate must be followed by a low-surrogate escape, whose six
characters are consumed in addition (the returned count). -/
def parseUEscape (h1 h2 h3 h4 : Char) (t3 : List Char) : Option (Char × Nat) :=
  match hexVal h1, hexVal h2, hexVal h3, hexVal h4 with
  | some a, some b, some c3, some d =>
    let code := ((a * 16 + b) * 16 + c3) * 16 + d
    if isValidScalar code then some (Char.ofNat code, 0)
    else if code < 56320 then
      match t3 with
      | b1 :: u1 :: g1 :: g2 :: g3 :: g4 :: _ =>
        match lowSurrogateVal b1 u1 g1 g2 g3 g4 with
        | some code2 => some (Char.ofNat (combineSurrogates code code2), 6)
        | none => none
      | _ => none
    else none
  | _, _, _, _ => none

/-- String body after the opening quote: raw characters (control
characters rejected, as in strict `json.loads`), short escapes, and
`\uXXXX` escapes up to the closing quote.  A high-surrogate escape
immediately followed by a low-surrogate escape is combined into one
astral scalar, as `py_scanstring` does; an uncombined surrogate
escape — which CPython turns into a lone-surrogate `str` that a Lean
`String` cannot hold — is the one place this model reports failure
where CPython builds a value. -/
def parseStrChars : List Char → Option (List Char × List Char)
  | [] => none
  | c :: t =>
    if c = quoteChar then some ([], t)
    else if c = backslashChar then
      match t with
      | [] => none
      | e :: t2 =>
        if e = 'u' then
          match t2 with
          | h1 :: h2 :: h3 :: h4 :: t3 =>
            match parseUEscape h1 h2 h3 h4 t3 with
            | some (u, k) =>
              match parseStrChars (t3.drop k) with
              | some (cs, r) => some (u :: cs, r)
              | none => none
            | none => none
          | _ => none
        else
          match simpleUnescape e with
          | some u =>
            match parseStrChars t2 with
            | some (cs, r) => some (u :: cs, r)
            | none => none
          | none => none
    else if c.toNat < 32 then none
    else
      match parseStrChars t with
      | some (cs, r) => some (c :: cs, r)
      | none => none
termination_by s => s.length
decreasing_by
  · simp [List.length_drop]
    omega
  · simp
    omega
  · simp

mutual
/-- One JSON value, fuelled; `fuel` bounds the nesting depth.
Leading whitespace is skipped, then the dispatch runs. -/
def parseVal : Nat → List Char → Option (JsonVal × List Char)
  | 0, _ => none
  | fuel + 1, s => parseValCore fuel (skipWs s)
/-- Value dispatch on the first significant character, in the order of
`_scan_once`: string, object, array, the three literal names, the
number token, then the `NaN` / `Infinity` / `-Infinity` extensions
(the `-Infinity` spelling is reached only when the number regex fails
on the minus, exactly as in the scanner). -/
def parseValCore : Nat → List Char → Option (JsonVal × List Char)
  | fuel, s =>
    match s with
    | [] => none
    | c :: t =>
      if c = quoteChar then
        match parseStrChars t with
        | some (cs, r) => some (JsonVal.str (String.mk cs), r)
        | none => none
      else if c = openBraceChar then
        match skipWs t with
        | [] => none
        | c2 :: t2 =>
          if c2 = closeBraceChar then some (JsonVal.obj JsonMembers.nil, t2)
          else
            match parseMembers fuel (c2 :: t2) with
            | some (ms, r) => some (JsonVal.obj ms, r)
            | none => none
      else if c = '[' then
        match skipWs t with
        | [] => none
        | c2 :: t2 =>
          if c2 = ']' then some (JsonVal.arr JsonElems.nil, t2)
          else
            match parseElems fuel (c2 :: t2) with
            | some (es, r) => some (JsonVal.arr es, r)
            | none => none
      else if c = 'n' then litTok ['u', 'l', 'l'] JsonVal.null t
      else if c = 't' then litTok ['r', 'u', 'e'] (JsonVal.bool true) t
      else if c = 'f' then litTok ['a', 'l', 's', 'e'] (JsonVal.bool false) t
      else if c = '-' || isDigitChar c then
        match parseNumberToken (c :: t) with
        | some (v, r) => some (v, r)
        | none =>
          if c = '-' then
            litTok ['I', 'n', 'f', 'i', 'n', 'i', 't', 'y'] (JsonVal.flt PyFloat.ninf) t
          else none
      else if c = 'N' then litTok ['a', 'N'] (JsonVal.flt PyFloat.nan) t
      else if c = 'I' then
        litTok ['n', 'f', 'i', 'n', 'i', 't', 'y'] (JsonVal.flt PyFloat.inf) t
      else none
/-- One or more array elements followed by the closing bracket, which
is consumed. -/
def parseElems : Nat → List Char → Option (JsonElems × List Char)
  | 0, _ => none
  | fuel + 1, s => parseElemsCore fuel (skipWs s)
/-- Element dispatch: a value, then a comma or the closing bracket,
as in `JSONArray`. -/
def parseElemsCore : Nat → List Char → Option (JsonElems × List Char)
  | fuel, s =>
    match parseVal fuel s with
    | some (v, r1) =>
      match skipWs r1 with
      | [] => none
      | c2 :: r2 =>
        if c2 = ',' then
          match parseElems fuel r2 with
          | some (es, r3) => some (JsonElems.cons v es, r3)
          | none => none
        else if c2 = ']' then
          some (JsonElems.cons v JsonElems.nil, r2)
        else none
    | none => none
/-- One or more `"key": value` members followed by the closing
brace, which is consumed. -/
def parseMembers : Nat → List Char → Option (JsonMembers × List Char)
  | 0, _ => none
  | fuel + 1, s => parseMembersCore fuel (skipWs s)
/-- Member dispatch: a quoted key, a colon, a value, then a comma or
the closing brace. -/
def parseMembersCore : Nat → List Char → Option (JsonMembers × List Char)
  | fuel, s =>
    match s with
    | [] => none
    | c :: t =>
      if c = quoteChar then
        match parseStrChars t with
        | some (kcs, r1) =>
          match skipWs r1 with
          | ':' :: r2 =>
            match parseVal fuel r2 with
            | some (v, r3) =>
              match skipWs r3 with
              | [] => none
              | c5 :: r5 =>
                if c5 = ',' then
                  match parseMembers fuel r5 with
                  | some (ms, r6) => some (JsonMembers.cons (String.mk kcs) v ms, r6)
                  | none => none
                else if c5 = closeBraceChar then
                  some (JsonMembers.cons (String.mk kcs) v JsonMembers.nil, r5)
                else none
            | none => none
          | _ => none
        | none => none
      else none
end

/-- `json.loads`: parse one value, allow trailing whitespace only. -/
def jsonLoads (s : String) : Option JsonVal :=
  match parseVal (s.length + 1) s.data with
  | some (v, r) => if skipWs r = [] then some v else none
  | none => none

/-! ## UTF-8 (`message.encode('utf-8')` / `message_bytes.decode('utf-8')`)

Bytes are naturals below 256. -/

/-- UTF-8 encoding of one scalar value. -/
def utf8EncodeChar (c : Char) : List Nat :=
  let n := c.toNat
  if n < 128 then [n]
  else if n < 2048 then [192 + n / 64, 128 + n % 64]
  else if n < 65536 then [224 + n / 4096, 128 + n / 64 % 64, 128 + n % 64]
  else [240 + n / 262144, 128 + n / 4096 % 64, 128 + n / 64 % 64, 128 + n % 64]

/-- `str.encode('utf-8')`. -/
def utf8Encode (s : String) : List Nat :=
  s.data.flatMap utf8EncodeChar

/-- Decode one scalar from the front of a byte stream.  Strict, as
CPython's decoder: continuation bytes must be in 128..191, overlong
forms, surrogates and values above 0x10FFFF are rejected. -/
def utf8DecodeOne : List Nat → Option (Char × List Nat)
  | [] => none
  | b0 :: t =>
    if b0 < 128 then some (Char.ofNat b0, t)
    else if b0 < 192 then none
    else if b0 < 224 then
      match t with
      | b1 :: t2 =>
        if 128 ≤ b1 && b1 < 192 then
          let n := (b0 - 192) * 64 + (b1 - 128)
          if 128 ≤ n then some (Char.ofNat n, t2) else none
        else none
      | _ => none
    else if b0 < 240 then
      match t with
      | b1 :: b2 :: t2 =>
        if (128 ≤ b1 && b1 < 192) && (128 ≤ b2 && b2 < 192) then
          let n := (b0 - 224) * 4096 + (b1 - 128) * 64 + (b2 - 128)
          if 2048 ≤ n && !(55296 ≤ n && n < 57344) then some (Char.ofNat n, t2) else none
        else none
      | _ => none
    else if b0 < 248 then
      match t with
      | b1 :: b2 :: b3 :: t2 =>
        if ((128 ≤ b1 && b1 < 192) && (128 ≤ b2 && b2 < 192)) && (128 ≤ b3 && b3 < 192) then
          let n := (b0 - 240) * 262144 + (b1 - 128) * 4096 + (b2 - 128) * 64 + (b3 - 128)
          if 65536 ≤ n && n < 1114112 then some (Char.ofNat n, t2) else none
        else none
      | _ => none
    else none

/-- Fuelled decoding loop; each step consumes at least one byte, so
fuel equal to the stream length always suffices. -/
def utf8DecodeAux : Nat → List Nat → Option (List Char)
  | _, [] => some []
  | 0, _ :: _ => none
  | fuel + 1, b :: t =>
    match utf8DecodeOne (b :: t) with
    | some (c, rest) =>
      match utf8DecodeAux fuel rest with
      | some cs => some (c :: cs)
      | none => none
    | none => none

/-- `bytes.decode('utf-8')`, `None` on any decoding error. -/
def utf8Decode (bytes : List Nat) : Option (List Char) :=
  utf8DecodeAux bytes.length bytes

/-! ## Framed transport (`_send_message` / `_receive_message` /
`_receive_exact`, `network.py` 330-379) -/

/-- `message_length.to_bytes(4, byteorder='big')`. -/
def toBytesBE4 (n : Nat) : List Nat :=
  [n / 16777216 % 256, n / 65536 % 256, n / 256 % 256, n % 256]

/-- `int.from_bytes(length_bytes, byteorder='big')`. -/
def fromBytesBE (bs : List Nat) : Nat :=
  bs.foldl (fun acc b => acc * 256 + b) 0

/-- `_receive_exact(sock, length)`: loop `recv` until `length` bytes
are read; if the stream ends first (`recv` returns empty or raises),
`None`.  The stream is everything the peer sends before closing. -/
def receiveExact (stream : List Nat) (len : Nat) : Option (List Nat × List Nat) :=
  if len ≤ stream.length then some (stream.take len, stream.drop len) else none

/-- `_send_message(sock, data)`: dumps, utf-8 encode, 4-byte
big-endian length prefix, payload.  `to_bytes(4, ...)` raises
`OverflowError` for a payload of 2^32 bytes or more, modelled as
`none`. -/
def sendMessage (v : JsonVal) : Option (List Nat) :=
  let payload := utf8Encode (jsonDumps v)
  if payload.length < 4294967296 then some (toBytesBE4 payload.length ++ payload) else none

/-- `_receive_message(sock)`: read the 4 length bytes, read the
payload, utf-8 decode, json decode; every truncation or decode
failure (including the `if not message_bytes` test, which also fires
on a declared length of zero) yields `None`, the `Closed` signal.
Returns the decoded value and the unconsumed remainder of the
stream. -/
def receiveMessage (stream : List Nat) : Option (JsonVal × List Nat) :=
  match receiveExact stream 4 with
  | none => none
  | some (lenBytes, rest) =>
    match receiveExact rest (fromBytesBE lenBytes) with
    | none => none
    | some (data, rest2) =>
      if data = [] then none
      else
        match utf8Decode data with
        | none => none
        | some cs =>
          match jsonLoads (String.mk cs) with
          | none => none
          | some v => some (v, rest2)

/-! ## Transport lemmas -/

/-- The 4-byte big-endian length prefix decodes to the encoded
length. -/
theorem fromBytesBE_toBytesBE4 (n : Nat) (h : n < 4294967296) :
    fromBytesBE (toBytesBE4 n) = n := by
  unfold fromBytesBE toBytesBE4
  simp only [List.foldl_cons, List.foldl_nil]
  omega

/-- Reading exactly the length of a prefix returns that prefix and
the remainder. -/
theorem receiveExact_append (a b : List Nat) :
    receiveExact (a ++ b) a.length = some (a, b) := by
  unfold receiveExact
  rw [if_pos (by simp)]
  rw [List.take_left, List.drop_left]

/-- Reading exactly the full stream returns it with nothing left. -/
theorem receiveExact_self (s : List Nat) :
    receiveExact s s.length = some (s, []) := by
  unfold receiveExact
  simp

/-- Each scalar encodes to at least one byte. -/
theorem utf8EncodeChar_length_pos (c : Char) : 0 < (utf8EncodeChar c).length := by
  unfold utf8EncodeChar
  by_cases h1 : c.toNat < 128
  · simp [h1]
  · by_cases h2 : c.toNat < 2048
    · simp [h1, h2]
    · by_cases h3 : c.toNat < 65536
      · simp [h1, h2, h3]
      · simp [h1, h2, h3]

/-- Decoding undoes encoding for one scalar at the head of a
stream. -/
theorem utf8DecodeOne_encodeChar (c : Char) (rest : List Nat) :
    utf8DecodeOne (utf8EncodeChar c ++ rest) = some (c, rest) := by
  have hv : c.toNat < 55296 ∨ 57344 ≤ c.toNat ∧ c.toNat < 1114112 := by
    have h := c.valid
    simp only [Char.toNat]
    exact h
  by_cases h1 : c.toNat < 128
  · have he : utf8EncodeChar c = [c.toNat] := by
      unfold utf8EncodeChar
      rw [if_pos h1]
    rw [he]
    simp only [List.cons_append, List.nil_append]
    simp only [utf8DecodeOne]
    rw [if_pos h1, Char.ofNat_toNat]
  · by_cases h2 : c.toNat < 2048
    · have he : utf8EncodeChar c = [192 + c.toNat / 64, 128 + c.toNat % 64] := by
        unfold utf8EncodeChar
        rw [if_neg h1, if_pos h2]
      rw [he]
      simp only [List.cons_append, List.nil_append]
      simp only [utf8DecodeOne]
      rw [if_neg (by omega), if_neg (by omega), if_pos (by omega)]
      rw [if_pos (by simp; omega)]
      rw [if_pos (by omega)]
      have hn : (192 + c.toNat / 64 - 192) * 64 + (128 + c.toNat % 64 - 128) = c.toNat := by
        omega
      rw [hn, Char.ofNat_toNat]
    · by_cases h3 : c.toNat < 65536
      · have he : utf8EncodeChar c =
            [224 + c.toNat / 4096, 128 + c.toNat / 64 % 64, 128 + c.toNat % 64] := by
          unfold utf8EncodeChar
          rw [if_neg h1, if_neg h2, if_pos h3]
        rw [he]
        simp only [List.cons_append, List.nil_append]
        simp only [utf8DecodeOne]
        rw [if_neg (by omega), if_neg (by omega), if_neg (by omega), if_pos (by omega)]
        rw [if_pos (by simp; omega)]
        have hn : (224 + c.toNat / 4096 - 224) * 4096 + (128 + c.toNat / 64 % 64 - 128) * 64 +
            (128 + c.toNat % 64 - 128) = c.toNat := by
          omega
        rw [hn]
        rw [if_pos (by simp; omega)]
        rw [Char.ofNat_toNat]
      · have he : utf8EncodeChar c =
            [240 + c.toNat / 262144, 128 + c.toNat / 4096 % 64,
             128 + c.toNat / 64 % 64, 128 + c.toNat % 64] := by
          unfold utf8EncodeChar
          rw [if_neg h1, if_neg h2, if_neg h3]
        rw [he]
        simp only [List.cons_append, List.nil_append]
        simp only [utf8DecodeOne]
        rw [if_neg (by omega), if_neg (by omega), if_neg (by omega), if_neg (by omega),
          if_pos (by omega)]
        rw [if_pos (by simp; omega)]
        have hn : (240 + c.toNat / 262144 - 240) * 262144 + (128 + c.toNat / 4096 % 64 - 128) * 4096 +
            (128 + c.toNat / 64 % 64 - 128) * 64 + (128 + c.toNat % 64 - 128) = c.toNat := by
          omega
        rw [hn]
        rw [if_pos (by simp; omega)]
        rw [Char.ofNat_toNat]

/-- The fuelled decode loop undoes encoding of a character list when
given at least the stream length as fuel. -/
theorem utf8DecodeAux_encode (l : List Char) : ∀ fuel : Nat,
    (l.flatMap utf8EncodeChar).length ≤ fuel →
    utf8DecodeAux fuel (l.flatMap utf8EncodeChar) = some l := by
  induction l with
  | nil =>
    intro fuel _
    cases fuel <;> rfl
  | cons c t ih =>
    intro fuel hf
    have hflat : (c :: t).flatMap utf8EncodeChar =
        utf8EncodeChar c ++ t.flatMap utf8EncodeChar := by
      simp [List.flatMap_cons]
    have hpos := utf8EncodeChar_length_pos c
    have hlen : (utf8EncodeChar c ++ t.flatMap utf8EncodeChar).length =
        (utf8EncodeChar c).length + (t.flatMap utf8EncodeChar).length := by
      simp
    obtain ⟨b, bs, henc⟩ : ∃ b bs, utf8EncodeChar c = b :: bs := by
      cases hcc : utf8EncodeChar c with
      | nil => rw [hcc] at hpos; simp at hpos
      | cons b bs => exact ⟨b, bs, rfl⟩
    rw [hflat] at hf ⊢
    rw [hlen] at hf
    obtain ⟨f, rfl⟩ : ∃ f, fuel = f + 1 := by
      refine ⟨fuel - 1, ?_⟩
      omega
    rw [henc, List.cons_append]
    unfold utf8DecodeAux
    rw [← List.cons_append, ← henc]
    rw [utf8DecodeOne_encodeChar]
    simp only [ih f (by omega)]

/-- UTF-8 round trip at the byte level. -/
theorem utf8Decode_encode (s : String) :
    utf8Decode (utf8Encode s) = some s.data := by
  unfold utf8Decode utf8Encode
  exact utf8DecodeAux_encode s.data _ (le_refl _)

/-! ## Number printing and parsing lemmas -/

/-- Continuations whose head is no digit: where maximal digit runs
stop. -/
def headNotDigitB : List Char → Bool
  | [] => true
  | c :: _ => !isDigitChar c

/-- Continuations whose head opens no fraction group. -/
def headNotDotB : List Char → Bool
  | [] => true
  | c :: _ => !(c = '.')

/-- Continuations whose head opens no exponent group. -/
def headNotExpB : List Char → Bool
  | [] => true
  | c :: _ => !(c = 'e') && !(c = 'E')

/-- Head-of-rest condition under which the number token parse stops
exactly at the printed literal: the continuation starts with no digit
and with none of the characters that could extend the token into a
fraction or exponent group. -/
def restOkB : List Char → Bool
  | [] => true
  | c :: _ => !isDigitChar c && !(c = '.') && !(c = 'e') && !(c = 'E')

/-- A token-stopping continuation stops digit runs. -/
theorem restOkB_headNotDigit (s : List Char) (h : restOkB s = true) :
    headNotDigitB s = true := by
  cases s with
  | nil => rfl
  | cons c t =>
    simp only [restOkB, Bool.and_eq_true] at h
    simp only [headNotDigitB]
    exact h.1.1.1

/-- A token-stopping continuation opens no fraction group. -/
theorem restOkB_headNotDot (s : List Char) (h : restOkB s = true) :
    headNotDotB s = true := by
  cases s with
  | nil => rfl
  | cons c t =>
    simp only [restOkB, Bool.and_eq_true] at h
    simp only [headNotDotB]
    exact h.1.1.2

/-- A token-stopping continuation opens no exponent group. -/
theorem restOkB_headNotExp (s : List Char) (h : restOkB s = true) :
    headNotExpB s = true := by
  cases s with
  | nil => rfl
  | cons c t =>
    simp only [restOkB, Bool.and_eq_true] at h
    simp only [headNotExpB, Bool.and_eq_true]
    exact ⟨h.1.2, h.2⟩

/-- Digit characters: recognized, valued, and distinct from every
dispatch or continuation character the parser tests for. -/
theorem digitChar_spec (d : Nat) (h : d < 10) :
    isDigitChar (digitChar d) = true ∧ digitVal (digitChar d) = d ∧
    isWsChar (digitChar d) = false ∧ digitChar d ≠ 'n' ∧ digitChar d ≠ 't' ∧
    digitChar d ≠ 'f' ∧ digitChar d ≠ quoteChar ∧ digitChar d ≠ '-' ∧
    digitChar d ≠ openBraceChar ∧ digitChar d ≠ '[' ∧ digitChar d ≠ ']' ∧
    digitChar d ≠ '.' ∧ digitChar d ≠ 'e' ∧ digitChar d ≠ 'E' := by
  interval_cases d <;>
    refine ⟨by decide, by decide, by decide, by decide, by decide, by decide, by decide,
      by decide, by decide, by decide, by decide, by decide, by decide, by decide⟩

/-- The digit run parser reads exactly a printed digit block. -/
theorem parseDigitRun_map (ds : List Nat) : ∀ (acc : Nat) (rest : List Char),
    (∀ d ∈ ds, d < 10) → headNotDigitB rest = true →
    parseDigitRun ((ds.map digitChar) ++ rest) acc =
      (ds.foldl (fun a d => a * 10 + d) acc, rest) := by
  induction ds with
  | nil =>
    intro acc rest _ hrest
    cases rest with
    | nil => rfl
    | cons c t =>
      simp only [List.map_nil, List.nil_append, parseDigitRun]
      simp only [headNotDigitB, Bool.not_eq_true'] at hrest
      rw [if_neg (by simp [hrest])]
      simp
  | cons d ds' ih =>
    intro acc rest hds hrest
    have hd := digitChar_spec d (hds d (List.mem_cons_self d ds'))
    simp only [List.map_cons, List.cons_append, parseDigitRun]
    rw [if_pos hd.1, hd.2.1]
    simp only [List.append_eq]
    rw [ih (acc * 10 + d) rest (fun x hx => hds x (List.mem_cons_of_mem d hx)) hrest]
    rfl

/-- The digit-list parser reads exactly a printed digit block. -/
theorem parseDigitList_map (ds : List Nat) : ∀ (rest : List Char),
    (∀ d ∈ ds, d < 10) → headNotDigitB rest = true →
    parseDigitList ((ds.map digitChar) ++ rest) = (ds, rest) := by
  induction ds with
  | nil =>
    intro rest _ hrest
    cases rest with
    | nil => rfl
    | cons c t =>
      simp only [List.map_nil, List.nil_append, parseDigitList]
      simp only [headNotDigitB, Bool.not_eq_true'] at hrest
      rw [if_neg (by simp [hrest])]
  | cons d ds' ih =>
    intro rest hds hrest
    have hd := digitChar_spec d (hds d (List.mem_cons_self d ds'))
    simp only [List.map_cons, List.cons_append, parseDigitList]
    rw [if_pos hd.1, hd.2.1]
    simp only [List.append_eq]
    rw [ih rest (fun x hx => hds x (List.mem_cons_of_mem d hx)) hrest]

/-- Big-endian digit fold recovers the natural number. -/
theorem foldl_digits_reverse (n : Nat) :
    (Nat.digits 10 n).reverse.foldl (fun a d => a * 10 + d) 0 = n := by
  rw [List.foldl_reverse]
  have h : ∀ l : List Nat, l.foldr (fun x y => y * 10 + x) 0 = Nat.ofDigits 10 l := by
    intro l
    induction l with
    | nil => simp [Nat.ofDigits]
    | cons d t ih =>
      simp only [List.foldr_cons, ih, Nat.ofDigits_cons]
      ring
  rw [h]
  exact_mod_cast Nat.ofDigits_digits 10 n

/-- The canonical decimal expansion behind `natToChars`: a leading
digit and trailing digits whose fold recovers the number, the leading
digit nonzero for a nonzero number (as `repr` prints no leading
zero). -/
theorem natToChars_shape (n : Nat) : ∃ (d : Nat) (ds' : List Nat),
    natToChars n = digitChar d :: ds'.map digitChar ∧ d < 10 ∧
    (∀ x ∈ ds', x < 10) ∧ ds'.foldl (fun a x => a * 10 + x) d = n ∧
    (n ≠ 0 → d ≠ 0) := by
  by_cases h0 : n = 0
  · subst h0
    refine ⟨0, [], rfl, by norm_num, ?_, rfl, ?_⟩
    · intro x hx
      cases hx
    · intro h
      exact absurd rfl h
  · have hne : (Nat.digits 10 n).reverse ≠ [] := by
      simp [Nat.digits_ne_nil_iff_ne_zero, h0]
    obtain ⟨d, ds', hd⟩ : ∃ d ds', (Nat.digits 10 n).reverse = d :: ds' := by
      cases hcc : (Nat.digits 10 n).reverse with
      | nil => exact absurd hcc hne
      | cons d ds' => exact ⟨d, ds', rfl⟩
    have hlt : ∀ x ∈ (Nat.digits 10 n).reverse, x < 10 := by
      intro x hx
      exact Nat.digits_lt_base (by norm_num) (List.mem_reverse.mp hx)
    refine ⟨d, ds', ?_, hlt d (hd ▸ List.mem_cons_self d ds'), ?_, ?_, ?_⟩
    · rw [natToChars_eq_digits, if_neg h0, hd]
      rfl
    · intro x hx
      exact hlt x (hd ▸ List.mem_cons_of_mem d hx)
    · have h1 := foldl_digits_reverse n
      rw [hd] at h1
      simpa using h1
    · intro _
      have hrev : Nat.digits 10 n = ds'.reverse ++ [d] := by
        have h2 := congrArg List.reverse hd
        simpa using h2
    
      have hsome : (Nat.digits 10 n).getLast? = some d := by
        rw [hrev]
        exact List.getLast?_concat _
      have hne2 : Nat.digits 10 n ≠ [] := by
        simp [Nat.digits_ne_nil_iff_ne_zero, h0]
      have hlast := Nat.getLast_digit_ne_zero 10 h0
      rw [List.getLast?_eq_getLast_of_ne_nil hne2] at hsome
      have hdd : (Nat.digits 10 n).getLast hne2 = d := by
        injection hsome
      intro hd0
      rw [hd0] at hdd
      exact absurd hdd (by simpa using hlast)

/-- A nonzero digit does not print as the zero character. -/
theorem digitChar_ne_zeroChar (d : Nat) (h : d < 10) (h0 : d ≠ 0) :
    ¬(digitChar d = '0') := by
  interval_cases d
  · exact absurd rfl h0
  all_goals decide

/-- The printed form is never empty. -/
theorem natToChars_ne_nil (n : Nat) : natToChars n ≠ [] := by
  obtain ⟨d, ds', hshape, -⟩ := natToChars_shape n
  rw [hshape]
  simp

/-- The integer-group parser reads exactly a printed natural:
`natToChars` prints no leading zero, so the no-leading-zero group
covers the whole digit block. -/
theorem parseIntPart_natToChars (n : Nat) (rest : List Char)
    (hrest : headNotDigitB rest = true) :
    parseIntPart (natToChars n ++ rest) = some (n, rest) := by
  by_cases h0 : n = 0
  · subst h0
    rw [show natToChars 0 = ['0'] from rfl]
    simp [parseIntPart]
  · obtain ⟨d, ds', hshape, hdlt, hds'lt, hfold, hd0⟩ := natToChars_shape n
    have hspec := digitChar_spec d hdlt
    rw [hshape]
    simp only [List.cons_append, parseIntPart]
    rw [if_neg (digitChar_ne_zeroChar d hdlt (hd0 h0)), if_pos hspec.1, hspec.2.1]
    rw [parseDigitRun_map ds' d rest hds'lt hrest, hfold]

/-- A continuation opening no fraction group leaves the fraction
parser with nothing. -/
theorem parseFracPart_none (s : List Char) (h : headNotDotB s = true) :
    parseFracPart s = (none, s) := by
  match s with
  | [] => rfl
  | [c] => rfl
  | c :: d :: t =>
    simp only [headNotDotB, Bool.not_eq_true'] at h
    simp only [parseFracPart]
    rw [if_neg (by simp [h])]

/-- The fraction parser reads exactly a printed fraction group. -/
theorem parseFracPart_print (ds : List Nat) (hne : ds ≠ []) (hlt : ∀ d ∈ ds, d < 10)
    (tail : List Char) (htail : headNotDigitB tail = true) :
    parseFracPart (fracCharsOf (some ds) ++ tail) = (some ds, tail) := by
  cases ds with
  | nil => exact absurd rfl hne
  | cons d0 ds' =>
    have hd0 := digitChar_spec d0 (hlt d0 (List.mem_cons_self d0 ds'))
    simp only [fracCharsOf, List.map_cons, List.cons_append, parseFracPart]
    rw [if_pos (by simp [hd0.1])]
    rw [parseDigitList_map ds' tail (fun x hx => hlt x (List.mem_cons_of_mem d0 hx)) htail]
    rw [hd0.2.1]

/-- A continuation opening no exponent group leaves the exponent
parser with nothing. -/
theorem parseExpPart_none (s : List Char) (h : headNotExpB s = true) :
    parseExpPart s = (none, s) := by
  cases s with
  | nil => rfl
  | cons c t =>
    simp only [headNotExpB, Bool.and_eq_true, Bool.not_eq_true'] at h
    simp only [parseExpPart]
    rw [if_neg (by simp [h.1, h.2])]

/-- The zero-padded exponent digits share the shape of a printed
natural: a digit block folding back to the exponent. -/
theorem expDigitsChars_shape (e : Nat) : ∃ (d : Nat) (ds' : List Nat),
    expDigitsChars e = digitChar d :: ds'.map digitChar ∧ d < 10 ∧
    (∀ x ∈ ds', x < 10) ∧ ds'.foldl (fun a x => a * 10 + x) d = e := by
  by_cases he : e < 10
  · refine ⟨0, [e], ?_, by norm_num, ?_, ?_⟩
    · simp [expDigitsChars, he]
      rfl
    · intro x hx
      simp at hx
      omega
    · simp
  · obtain ⟨d, ds', hshape, hdlt, hds'lt, hfold, -⟩ := natToChars_shape e
    exact ⟨d, ds', by simp [expDigitsChars, he, hshape], hdlt, hds'lt, hfold⟩

/-- The exponent parser reads exactly a printed exponent group. -/
theorem parseExpPart_print (en : Bool) (e : Nat) (rest : List Char)
    (hrest : headNotDigitB rest = true) :
    parseExpPart (expCharsOf (some (en, e)) ++ rest) = (some (en, e), rest) := by
  obtain ⟨d, ds', hshape, hdlt, hds'lt, hfold⟩ := expDigitsChars_shape e
  have hspec := digitChar_spec d hdlt
  have hrun := parseDigitRun_map ds' (digitVal (digitChar d)) rest hds'lt hrest
  have hrun2 := hrun
  rw [hspec.2.1] at hrun2
  cases en with
  | false =>
    rw [show expCharsOf (some (false, e)) = 'e' :: '+' :: expDigitsChars e from rfl, hshape]
    simp only [List.cons_append, parseExpPart]
    simp [hspec.1, hspec.2.1, (by decide : isDigitChar '+' = false), hrun, hrun2, hfold]
  | true =>
    rw [show expCharsOf (some (true, e)) = 'e' :: '-' :: expDigitsChars e from rfl, hshape]
    simp only [List.cons_append, parseExpPart]
    simp [hspec.1, hspec.2.1, (by decide : isDigitChar '-' = false), hrun, hrun2, hfold]

/-- After a token-stopping continuation, a printed exponent (or its
absence) still starts with no digit. -/
theorem headNotDigitB_expCharsOf (ex : Option (Bool × Nat)) (rest : List Char)
    (hrest : restOkB rest = true) :
    headNotDigitB (expCharsOf ex ++ rest) = true := by
  cases ex with
  | none => exact restOkB_headNotDigit rest hrest
  | some p =>
    obtain ⟨en, e⟩ := p
    simp only [expCharsOf, List.cons_append, headNotDigitB]
    decide

/-- After a token-stopping continuation, a printed exponent (or its
absence) opens no fraction group. -/
theorem headNotDotB_expCharsOf (ex : Option (Bool × Nat)) (rest : List Char)
    (hrest : restOkB rest = true) :
    headNotDotB (expCharsOf ex ++ rest) = true := by
  cases ex with
  | none => exact restOkB_headNotDot rest hrest
  | some p =>
    obtain ⟨en, e⟩ := p
    simp only [expCharsOf, List.cons_append, headNotDotB]
    decide

/-- The number body reads a printed integer back. -/
theorem parseNumBody_int (neg : Bool) (n : Nat) (rest : List Char)
    (hrest : restOkB rest = true) :
    parseNumBody neg (natToChars n ++ rest) =
      some (JsonVal.num (if neg then -(n : Int) else (n : Int)), rest) := by
  have hip := parseIntPart_natToChars n rest (restOkB_headNotDigit rest hrest)
  have hfp := parseFracPart_none rest (restOkB_headNotDot rest hrest)
  have hep := parseExpPart_none rest (restOkB_headNotExp rest hrest)
  simp [parseNumBody, hip, hfp, hep]

/-- The number body reads a printed well-formed float literal back. -/
theorem parseNumBody_flt (f : FloatLit) (hwf : floatLitWfB f = true)
    (rest : List Char) (hrest : restOkB rest = true) :
    parseNumBody f.neg
        (natToChars f.intPart ++ (fracCharsOf f.frac ++ (expCharsOf f.exp ++ rest))) =
      some (JsonVal.flt (PyFloat.finite f), rest) := by
  obtain ⟨neg, ip, fr, ex⟩ := f
  simp only [floatLitWfB, Bool.and_eq_true, Bool.or_eq_true] at hwf
  simp only []
  cases fr with
  | some ds =>
    have hds : ds ≠ [] ∧ ∀ d ∈ ds, d < 10 := by
      have h2 := hwf.2
      simp only [Bool.and_eq_true, Bool.not_eq_true', List.all_eq_true,
        decide_eq_true_eq] at h2
      exact ⟨by simpa using h2.1, h2.2⟩
    have hip : parseIntPart (natToChars ip ++
        (fracCharsOf (some ds) ++ (expCharsOf ex ++ rest))) =
        some (ip, fracCharsOf (some ds) ++ (expCharsOf ex ++ rest)) := by
      apply parseIntPart_natToChars
      cases ds with
      | nil => exact absurd rfl hds.1
      | cons d0 ds' =>
        simp only [fracCharsOf, List.map_cons, List.cons_append, headNotDigitB]
        decide
    have hfp := parseFracPart_print ds hds.1 hds.2 (expCharsOf ex ++ rest)
      (headNotDigitB_expCharsOf ex rest hrest)
    have hep : parseExpPart (expCharsOf ex ++ rest) =
        (ex, rest) := by
      cases ex with
      | none => exact parseExpPart_none rest (restOkB_headNotExp rest hrest)
      | some p =>
        obtain ⟨en, e⟩ := p
        exact parseExpPart_print en e rest (restOkB_headNotDigit rest hrest)
    simp [parseNumBody, hip, hfp, hep]
  | none =>
    have hex : ∃ en e, ex = some (en, e) := by
      cases ex with
      | none => simp at hwf
      | some p => exact ⟨p.1, p.2, by simp⟩
    obtain ⟨en, e, rfl⟩ := hex
    have hip : parseIntPart (natToChars ip ++
        (fracCharsOf none ++ (expCharsOf (some (en, e)) ++ rest))) =
        some (ip, fracCharsOf none ++ (expCharsOf (some (en, e)) ++ rest)) := by
      apply parseIntPart_natToChars
      simp only [fracCharsOf, List.nil_append]
      exact headNotDigitB_expCharsOf (some (en, e)) rest hrest
    have hfp : parseFracPart (fracCharsOf none ++ (expCharsOf (some (en, e)) ++ rest)) =
        (none, fracCharsOf none ++ (expCharsOf (some (en, e)) ++ rest)) := by
      apply parseFracPart_none
      simp only [fracCharsOf, List.nil_append]
      exact headNotDotB_expCharsOf (some (en, e)) rest hrest
    have hep := parseExpPart_print en e rest (restOkB_headNotDigit rest hrest)
    simp only [fracCharsOf, List.nil_append] at hip hfp
    simp [parseNumBody, hip, hfp, hep, fracCharsOf]

/-- A fixed literal token parses off the front of its own print. -/
theorem litTok_append (lit : List Char) (v : JsonVal) (rest : List Char) :
    litTok lit v (lit ++ rest) = some (v, rest) := by
  simp [litTok, List.take_left, List.drop_left]

/-! ## String literal round-trip lemmas -/

/-- Hex digits parse back to their value. -/
theorem hexVal_hexDigitChar (h : Nat) (hlt : h < 16) :
    hexVal (hexDigitChar h) = some h := by
  interval_cases h <;> decide

/-- A short escape sequence parses back to the escaped character. -/
theorem parseStrChars_escape_pair (e u : Char) (X : List Char)
    (hu : simpleUnescape e = some u) (hne : e ≠ 'u') :
    parseStrChars (backslashChar :: e :: X) =
      match parseStrChars X with
      | some (cs, r) => some (u :: cs, r)
      | none => none := by
  cases hpx : parseStrChars X with
  | none =>
    rw [parseStrChars.eq_def]
    simp [hu, hne, hpx, (by decide : ¬(backslashChar = quoteChar))]
  | some pr =>
    obtain ⟨cs, r⟩ := pr
    rw [parseStrChars.eq_def]
    simp [hu, hne, hpx, (by decide : ¬(backslashChar = quoteChar))]

/-- A `\u00xy` escape parses back to the control character. -/
theorem parseStrChars_escape_u (c : Char) (X : List Char) (h32 : c.toNat < 32) :
    parseStrChars (backslashChar :: 'u' :: '0' :: '0' ::
        hexDigitChar (c.toNat / 16) :: hexDigitChar (c.toNat % 16) :: X) =
      match parseStrChars X with
      | some (cs, r) => some (c :: cs, r)
      | none => none := by
  have hdiv : c.toNat / 16 < 16 := by omega
  have hmod : c.toNat % 16 < 16 := by omega
  have hvs : isValidScalar c.toNat = true := by
    simp only [isValidScalar, Bool.or_eq_true, decide_eq_true_eq]
    omega
  have hu : parseUEscape '0' '0'
      (hexDigitChar (c.toNat / 16)) (hexDigitChar (c.toNat % 16)) X = some (c, 0) := by
    simp [parseUEscape, (by decide : hexVal '0' = some 0),
      hexVal_hexDigitChar (c.toNat / 16) hdiv, hexVal_hexDigitChar (c.toNat % 16) hmod,
      (by omega : c.toNat / 16 * 16 + c.toNat % 16 = c.toNat),
      (by omega : 16 * (c.toNat / 16) + c.toNat % 16 = c.toNat), hvs, Char.ofNat_toNat]
  cases hpx : parseStrChars X with
  | none =>
    rw [parseStrChars.eq_def]
    simp [hpx, hu, (by decide : ¬(backslashChar = quoteChar))]
  | some pr =>
    obtain ⟨cs, r⟩ := pr
    rw [parseStrChars.eq_def]
    simp [hpx, hu, (by decide : ¬(backslashChar = quoteChar))]

/-- A raw (unescaped) character parses back to itself. -/
theorem parseStrChars_raw (c : Char) (X : List Char)
    (hq : c ≠ quoteChar) (hb : c ≠ backslashChar) (h32 : ¬c.toNat < 32) :
    parseStrChars (c :: X) =
      match parseStrChars X with
      | some (cs, r) => some (c :: cs, r)
      | none => none := by
  cases hpx : parseStrChars X with
  | none =>
    rw [parseStrChars.eq_def]
    simp [hq, hb, h32, hpx]
  | some pr =>
    obtain ⟨cs, r⟩ := pr
    rw [parseStrChars.eq_def]
    simp [hq, hb, h32, hpx]

/-- The escaped body of a string literal parses back to the original
characters, consuming the closing quote. -/
theorem parseStrChars_flatMap (cs : List Char) (rest : List Char) :
    parseStrChars (cs.flatMap escapeChar ++ (quoteChar :: rest)) = some (cs, rest) := by
  induction cs with
  | nil =>
    rw [List.flatMap_nil, List.nil_append, parseStrChars.eq_def]
    simp
  | cons c t ih =>
    have hX : (c :: t).flatMap escapeChar ++ (quoteChar :: rest) =
        escapeChar c ++ (t.flatMap escapeChar ++ (quoteChar :: rest)) := by
      simp [List.flatMap_cons]
    rw [hX]
    by_cases hquote : c = quoteChar
    · subst hquote
      rw [show escapeChar quoteChar = [backslashChar, quoteChar] from by decide]
      simp only [List.cons_append, List.nil_append]
      rw [parseStrChars_escape_pair quoteChar quoteChar _ (by decide) (by decide), ih]
    · by_cases hbs : c = backslashChar
      · subst hbs
        rw [show escapeChar backslashChar = [backslashChar, backslashChar] from by decide]
        simp only [List.cons_append, List.nil_append]
        rw [parseStrChars_escape_pair backslashChar backslashChar _ (by decide) (by decide), ih]
      · by_cases h8 : c = Char.ofNat 8
        · subst h8
          rw [show escapeChar (Char.ofNat 8) = [backslashChar, 'b'] from by decide]
          simp only [List.cons_append, List.nil_append]
          rw [parseStrChars_escape_pair 'b' (Char.ofNat 8) _ (by decide) (by decide), ih]
        · by_cases h9 : c = Char.ofNat 9
          · subst h9
            rw [show escapeChar (Char.ofNat 9) = [backslashChar, 't'] from by decide]
            simp only [List.cons_append, List.nil_append]
            rw [parseStrChars_escape_pair 't' (Char.ofNat 9) _ (by decide) (by decide), ih]
          · by_cases h10 : c = Char.ofNat 10
            · subst h10
              rw [show escapeChar (Char.ofNat 10) = [backslashChar, 'n'] from by decide]
              simp only [List.cons_append, List.nil_append]
              rw [parseStrChars_escape_pair 'n' (Char.ofNat 10) _ (by decide) (by decide), ih]
            · by_cases h12 : c = Char.ofNat 12
              · subst h12
                rw [show escapeChar (Char.ofNat 12) = [backslashChar, 'f'] from by decide]
                simp only [List.cons_append, List.nil_append]
                rw [parseStrChars_escape_pair 'f' (Char.ofNat 12) _ (by decide) (by decide), ih]
              · by_cases h13 : c = Char.ofNat 13
                · subst h13
                  rw [show escapeChar (Char.ofNat 13) = [backslashChar, 'r'] from by decide]
                  simp only [List.cons_append, List.nil_append]
                  rw [parseStrChars_escape_pair 'r' (Char.ofNat 13) _ (by decide) (by decide), ih]
                · by_cases h32 : c.toNat < 32
                  · have he : escapeChar c = [backslashChar, 'u', '0', '0',
                        hexDigitChar (c.toNat / 16), hexDigitChar (c.toNat % 16)] := by
                      unfold escapeChar
                      rw [if_neg hquote, if_neg hbs, if_neg h8, if_neg h9, if_neg h10,
                        if_neg h12, if_neg h13, if_pos h32]
                    rw [he]
                    simp only [List.cons_append, List.nil_append]
                    rw [parseStrChars_escape_u c _ h32, ih]
                  · have he : escapeChar c = [c] := by
                      unfold escapeChar
                      rw [if_neg hquote, if_neg hbs, if_neg h8, if_neg h9, if_neg h10,
                        if_neg h12, if_neg h13, if_neg h32]
                    rw [he]
                    simp only [List.cons_append, List.nil_append]
                    rw [parseStrChars_raw c _ hquote hbs h32, ih]

/-! ## Parser round-trip support -/

mutual
/-- Fuel sufficient for the parser on a value. -/
def jsizeVal : JsonVal → Nat
  | JsonVal.obj ms => jsizeMembers ms + 1
  | JsonVal.arr es => jsizeElems es + 1
  | _ => 1
/-- Fuel sufficient for the parser on an element list. -/
def jsizeElems : JsonElems → Nat
  | JsonElems.nil => 1
  | JsonElems.cons v rest => max (jsizeVal v) (jsizeElems rest) + 1
/-- Fuel sufficient for the parser on a member list. -/
def jsizeMembers : JsonMembers → Nat
  | JsonMembers.nil => 1
  | JsonMembers.cons _ v rest => max (jsizeVal v) (jsizeMembers rest) + 1
end

/-- Fuel requirements are positive. -/
theorem jsizeVal_pos (v : JsonVal) : 0 < jsizeVal v := by
  cases v <;> simp [jsizeVal]

/-- Element fuel requirements are positive. -/
theorem jsizeElems_pos (es : JsonElems) : 0 < jsizeElems es := by
  cases es <;> simp [jsizeElems]

/-- Member fuel requirements are positive. -/
theorem jsizeMembers_pos (ms : JsonMembers) : 0 < jsizeMembers ms := by
  cases ms <;> simp [jsizeMembers]

/-- A space at the head is dropped by the whitespace skipper. -/
theorem skipWs_space (s : List Char) : skipWs (' ' :: s) = skipWs s := by
  simp [skipWs, List.dropWhile_cons, (by decide : isWsChar ' ' = true)]

/-- The value parser ignores one leading space. -/
theorem parseVal_space (fuel : Nat) (h : 1 ≤ fuel) (s : List Char) :
    parseVal fuel (' ' :: s) = parseVal fuel s := by
  obtain ⟨f, rfl⟩ : ∃ f, fuel = f + 1 := ⟨fuel - 1, by omega⟩
  simp only [parseVal]
  rw [skipWs_space]

/-- The member parser ignores one leading space. -/
theorem parseMembers_space (fuel : Nat) (h : 1 ≤ fuel) (s : List Char) :
    parseMembers fuel (' ' :: s) = parseMembers fuel s := by
  obtain ⟨f, rfl⟩ : ∃ f, fuel = f + 1 := ⟨fuel - 1, by omega⟩
  simp only [parseMembers]
  rw [skipWs_space]

/-- The element parser ignores one leading space. -/
theorem parseElems_space (fuel : Nat) (h : 1 ≤ fuel) (s : List Char) :
    parseElems fuel (' ' :: s) = parseElems fuel s := by
  obtain ⟨f, rfl⟩ : ∃ f, fuel = f + 1 := ⟨fuel - 1, by omega⟩
  simp only [parseElems]
  rw [skipWs_space]

/-- A non-whitespace head passes through the whitespace skipper. -/
theorem skipWs_not_ws (c : Char) (t : List Char) (h : isWsChar c = false) :
    skipWs (c :: t) = c :: t := by
  simp [skipWs, List.dropWhile_cons, h]

/-- The whitespace skipper is idempotent. -/
theorem skipWs_skipWs (s : List Char) : skipWs (skipWs s) = skipWs s := by
  induction s with
  | nil => rfl
  | cons c t ih =>
    by_cases hc : isWsChar c = true
    · rw [show skipWs (c :: t) = skipWs t from by
        simp [skipWs, List.dropWhile_cons, hc]]
      exact ih
    · rw [skipWs_not_ws c t (by simpa using hc)]
      exact skipWs_not_ws c t (by simpa using hc)

/-- The value parser is insensitive to leading whitespace already
having been skipped. -/
theorem parseVal_skipWs (fuel : Nat) (h : 1 ≤ fuel) (s : List Char) :
    parseVal fuel (skipWs s) = parseVal fuel s := by
  obtain ⟨f, rfl⟩ : ∃ f, fuel = f + 1 := ⟨fuel - 1, by omega⟩
  simp only [parseVal, skipWs_skipWs]

/-- No value dumps to the empty string. -/
theorem dumpsVal_ne_nil (v : JsonVal) : dumpsVal v ≠ [] := by
  cases v with
  | null => simp [dumpsVal]
  | bool b => cases b <;> simp [dumpsVal]
  | num n =>
    simp only [dumpsVal]
    unfold intToChars
    split
    · simp
    · exact natToChars_ne_nil _
  | flt pf =>
    cases pf with
    | nan => simp [dumpsVal, dumpsFloat]
    | inf => simp [dumpsVal, dumpsFloat]
    | ninf => simp [dumpsVal, dumpsFloat]
    | finite fl =>
      simp [dumpsVal, dumpsFloat, List.append_eq_nil, natToChars_ne_nil fl.intPart]
  | str s => simp [dumpsVal, dumpsStrChars]
  | arr es => simp [dumpsVal]
  | obj ms => simp [dumpsVal]

/-- The first printed character of any value is never whitespace and
never the array-closing bracket. -/
theorem dumpsVal_head (v : JsonVal) : ∃ c t, dumpsVal v = c :: t ∧
    isWsChar c = false ∧ ¬(c = ']') := by
  cases v with
  | null => exact ⟨'n', ['u', 'l', 'l'], rfl, by decide, by decide⟩
  | bool b =>
    cases b with
    | true => exact ⟨'t', ['r', 'u', 'e'], rfl, by decide, by decide⟩
    | false => exact ⟨'f', ['a', 'l', 's', 'e'], rfl, by decide, by decide⟩
  | num n =>
    by_cases hneg : n < 0
    · refine ⟨'-', natToChars n.natAbs, ?_, by decide, by decide⟩
      simp [dumpsVal, intToChars, hneg]
    · obtain ⟨d, ds', hshape, hdlt, -, -, -⟩ := natToChars_shape n.toNat
      obtain ⟨-, -, hs3, -, -, -, -, -, -, -, hs11, -, -, -⟩ := digitChar_spec d hdlt
      refine ⟨digitChar d, ds'.map digitChar, ?_, hs3, hs11⟩
      simp [dumpsVal, intToChars, hneg, hshape]
  | flt pf =>
    cases pf with
    | nan => exact ⟨'N', ['a', 'N'], rfl, by decide, by decide⟩
    | inf => exact ⟨'I', ['n', 'f', 'i', 'n', 'i', 't', 'y'], rfl, by decide, by decide⟩
    | ninf =>
      exact ⟨'-', ['I', 'n', 'f', 'i', 'n', 'i', 't', 'y'], rfl, by decide, by decide⟩
    | finite fl =>
      cases hneg : fl.neg with
      | true =>
        refine ⟨'-', natToChars fl.intPart ++
          (fracCharsOf fl.frac ++ expCharsOf fl.exp), ?_, by decide, by decide⟩
        simp [dumpsVal, dumpsFloat, hneg]
      | false =>
        obtain ⟨d, ds', hshape, hdlt, -, -, -⟩ := natToChars_shape fl.intPart
        obtain ⟨-, -, hs3, -, -, -, -, -, -, -, hs11, -, -, -⟩ := digitChar_spec d hdlt
        refine ⟨digitChar d, ds'.map digitChar ++
          (fracCharsOf fl.frac ++ expCharsOf fl.exp), ?_, hs3, hs11⟩
        simp [dumpsVal, dumpsFloat, hneg, hshape]
  | str s =>
    exact ⟨quoteChar, s.data.flatMap escapeChar ++ [quoteChar], rfl, by decide, by decide⟩
  | arr es => exact ⟨'[', dumpsElemsTop es ++ [']'], rfl, by decide, by decide⟩
  | obj ms =>
    exact ⟨openBraceChar, dumpsMembersTop ms ++ [closeBraceChar], rfl, by decide, by decide⟩

/-- Parsing dumped `null`. -/
theorem parseVal_dumps_null (fuel : Nat) (h : 1 ≤ fuel) (rest : List Char) :
    parseVal fuel (dumpsVal JsonVal.null ++ rest) = some (JsonVal.null, rest) := by
  obtain ⟨f, rfl⟩ : ∃ f, fuel = f + 1 := ⟨fuel - 1, by omega⟩
  simp only [parseVal, dumpsVal, List.cons_append, List.nil_append]
  rw [skipWs_not_ws _ _ (by decide)]
  rw [parseValCore.eq_def]
  simp [litTok, (by decide : ¬('n' = quoteChar)), (by decide : ¬('n' = openBraceChar))]

/-- Parsing dumped booleans. -/
theorem parseVal_dumps_bool (b : Bool) (fuel : Nat) (h : 1 ≤ fuel) (rest : List Char) :
    parseVal fuel (dumpsVal (JsonVal.bool b) ++ rest) = some (JsonVal.bool b, rest) := by
  obtain ⟨f, rfl⟩ : ∃ f, fuel = f + 1 := ⟨fuel - 1, by omega⟩
  cases b with
  | true =>
    simp only [parseVal, dumpsVal, List.cons_append, List.nil_append]
    rw [skipWs_not_ws _ _ (by decide)]
    rw [parseValCore.eq_def]
    simp [litTok, (by decide : ¬('t' = quoteChar)), (by decide : ¬('t' = openBraceChar))]
  | false =>
    simp only [parseVal, dumpsVal, List.cons_append, List.nil_append]
    rw [skipWs_not_ws _ _ (by decide)]
    rw [parseValCore.eq_def]
    simp [litTok, (by decide : ¬('f' = quoteChar)), (by decide : ¬('f' = openBraceChar))]

/-- Parsing a dumped string literal. -/
theorem parseVal_dumps_str (s : String) (fuel : Nat) (h : 1 ≤ fuel) (rest : List Char) :
    parseVal fuel (dumpsVal (JsonVal.str s) ++ rest) = some (JsonVal.str s, rest) := by
  obtain ⟨f, rfl⟩ : ∃ f, fuel = f + 1 := ⟨fuel - 1, by omega⟩
  have hshape : dumpsVal (JsonVal.str s) ++ rest =
      quoteChar :: (s.data.flatMap escapeChar ++ (quoteChar :: rest)) := by
    simp [dumpsVal, dumpsStrChars]
  rw [hshape]
  simp only [parseVal]
  rw [skipWs_not_ws _ _ (by decide)]
  have hps := parseStrChars_flatMap s.data rest
  rw [parseValCore.eq_def]
  simp [hps, (show String.mk s.data = s by cases s; rfl)]

/-- Parsing a dumped integer. -/
theorem parseVal_dumps_num (n : Int) (fuel : Nat) (h : 1 ≤ fuel) (rest : List Char)
    (hrest : restOkB rest = true) :
    parseVal fuel (dumpsVal (JsonVal.num n) ++ rest) = some (JsonVal.num n, rest) := by
  obtain ⟨f, rfl⟩ : ∃ f, fuel = f + 1 := ⟨fuel - 1, by omega⟩
  by_cases hneg : n < 0
  · have hic : dumpsVal (JsonVal.num n) = '-' :: natToChars n.natAbs := by
      simp [dumpsVal, intToChars, hneg]
    have hval : -((n.natAbs : Nat) : Int) = n := by omega
    have hnum : parseNumBody true (natToChars n.natAbs ++ rest) =
        some (JsonVal.num n, rest) := by
      rw [parseNumBody_int true n.natAbs rest hrest, if_pos rfl, hval]
    rw [hic]
    simp only [parseVal, List.cons_append]
    rw [skipWs_not_ws _ _ (by decide)]
    rw [parseValCore.eq_def]
    simp [parseNumberToken, hnum,
      (by decide : ¬('-' = quoteChar)), (by decide : ¬('-' = openBraceChar))]
  · have hic : dumpsVal (JsonVal.num n) = natToChars n.toNat := by
      simp [dumpsVal, intToChars, hneg]
    have hvaln : ((n.toNat : Nat) : Int) = n := by omega
    have hnum : parseNumBody false (natToChars n.toNat ++ rest) =
        some (JsonVal.num n, rest) := by
      rw [parseNumBody_int false n.toNat rest hrest, if_neg (by simp), hvaln]
    obtain ⟨d, ds', hshape, hdlt, -, -, -⟩ := natToChars_shape n.toNat
    obtain ⟨hs1, hs2, hs3, hs4, hs5, hs6, hs7, hs8, hs9, hs10, hs11, hs12, hs13, hs14⟩ :=
      digitChar_spec d hdlt
    rw [hic, hshape]
    rw [hshape] at hnum
    simp only [List.cons_append] at hnum ⊢
    simp only [parseVal]
    rw [skipWs_not_ws _ _ hs3]
    rw [parseValCore.eq_def]
    simp [parseNumberToken, hnum, hs1, hs4, hs5, hs6, hs7, hs8, hs9, hs10]

/-- Parsing a dumped float. -/
theorem parseVal_dumps_flt (pf : PyFloat) (fuel : Nat) (h : 1 ≤ fuel) (rest : List Char)
    (hrest : restOkB rest = true) (hwf : jsonWfVal (JsonVal.flt pf) = true) :
    parseVal fuel (dumpsVal (JsonVal.flt pf) ++ rest) = some (JsonVal.flt pf, rest) := by
  obtain ⟨f, rfl⟩ : ∃ f, fuel = f + 1 := ⟨fuel - 1, by omega⟩
  cases pf with
  | nan =>
    simp only [parseVal, dumpsVal, dumpsFloat, List.cons_append, List.nil_append]
    rw [skipWs_not_ws _ _ (by decide)]
    rw [parseValCore.eq_def]
    simp [litTok, (by decide : ¬('N' = quoteChar)), (by decide : ¬('N' = openBraceChar)),
      (by decide : isDigitChar 'N' = false)]
  | inf =>
    simp only [parseVal, dumpsVal, dumpsFloat, List.cons_append, List.nil_append]
    rw [skipWs_not_ws _ _ (by decide)]
    rw [parseValCore.eq_def]
    simp [litTok, (by decide : ¬('I' = quoteChar)), (by decide : ¬('I' = openBraceChar)),
      (by decide : isDigitChar 'I' = false)]
  | ninf =>
    simp only [parseVal, dumpsVal, dumpsFloat, List.cons_append, List.nil_append]
    rw [skipWs_not_ws _ _ (by decide)]
    rw [parseValCore.eq_def]
    simp [litTok, parseNumberToken, parseNumBody, parseIntPart,
      (by decide : ¬('-' = quoteChar)), (by decide : ¬('-' = openBraceChar)),
      (by decide : isDigitChar 'I' = false)]
  | finite fl =>
    have hwfl : floatLitWfB fl = true := by simpa [jsonWfVal] using hwf
    have hnum := parseNumBody_flt fl hwfl rest hrest
    cases hneg : fl.neg with
    | true =>
      rw [hneg] at hnum
      have hsh : dumpsVal (JsonVal.flt (PyFloat.finite fl)) ++ rest =
          '-' :: (natToChars fl.intPart ++
            (fracCharsOf fl.frac ++ (expCharsOf fl.exp ++ rest))) := by
        simp [dumpsVal, dumpsFloat, hneg, List.append_assoc]
      rw [hsh]
      simp only [parseVal]
      rw [skipWs_not_ws _ _ (by decide)]
      rw [parseValCore.eq_def]
      simp [parseNumberToken, hnum,
        (by decide : ¬('-' = quoteChar)), (by decide : ¬('-' = openBraceChar))]
    | false =>
      rw [hneg] at hnum
      obtain ⟨d, ds', hshape, hdlt, -, -, -⟩ := natToChars_shape fl.intPart
      obtain ⟨hs1, hs2, hs3, hs4, hs5, hs6, hs7, hs8, hs9, hs10, hs11, hs12, hs13, hs14⟩ :=
        digitChar_spec d hdlt
      have hsh : dumpsVal (JsonVal.flt (PyFloat.finite fl)) ++ rest =
          digitChar d :: (ds'.map digitChar ++
            (fracCharsOf fl.frac ++ (expCharsOf fl.exp ++ rest))) := by
        simp [dumpsVal, dumpsFloat, hneg, hshape, List.append_assoc]
      rw [hsh]
      rw [hshape] at hnum
      simp only [List.cons_append] at hnum
      simp only [parseVal]
      rw [skipWs_not_ws _ _ hs3]
      rw [parseValCore.eq_def]
      simp [parseNumberToken, hnum, hs1, hs4, hs5, hs6, hs7, hs8, hs9, hs10]

/-- The tail following a member value starts with a comma or the
closing brace, never a character that could extend a number token. -/
theorem restOkB_membersRest (ms : JsonMembers) (rest : List Char) :
    restOkB (dumpsMembersRest ms ++ (closeBraceChar :: rest)) = true := by
  cases ms with
  | nil =>
    simp only [dumpsMembersRest, List.nil_append, restOkB]
    decide
  | cons k v ms2 =>
    simp only [dumpsMembersRest, List.cons_append, restOkB]
    decide

/-- The tail following an array element starts with a comma or the
closing bracket, never a character that could extend a number token. -/
theorem restOkB_elemsRest (es : JsonElems) (rest : List Char) :
    restOkB (dumpsElemsRest es ++ (']' :: rest)) = true := by
  cases es with
  | nil =>
    simp only [dumpsElemsRest, List.nil_append, restOkB]
    decide
  | cons v es2 =>
    simp only [dumpsElemsRest, List.cons_append, restOkB]
    decide

mutual
/-- Parsing the dumped form of any well-formed value recovers it,
given fuel at least its nesting size and a token-stopping
continuation. -/
theorem parseVal_dumps (v : JsonVal) (fuel : Nat) (rest : List Char)
    (hfuel : jsizeVal v ≤ fuel) (hrest : restOkB rest = true)
    (hwf : jsonWfVal v = true) :
    parseVal fuel (dumpsVal v ++ rest) = some (v, rest) := by
  cases v with
  | null => exact parseVal_dumps_null fuel hfuel rest
  | bool b => exact parseVal_dumps_bool b fuel hfuel rest
  | num n => exact parseVal_dumps_num n fuel hfuel rest hrest
  | flt pf => exact parseVal_dumps_flt pf fuel hfuel rest hrest hwf
  | str s => exact parseVal_dumps_str s fuel hfuel rest
  | arr es =>
    obtain ⟨f, rfl⟩ : ∃ f, fuel = f + 1 :=
      ⟨fuel - 1, by have := jsizeVal_pos (JsonVal.arr es); omega⟩
    cases es with
    | nil =>
      have hshape : dumpsVal (JsonVal.arr JsonElems.nil) ++ rest =
          '[' :: (']' :: rest) := by
        simp [dumpsVal, dumpsElemsTop]
      rw [hshape]
      simp only [parseVal]
      rw [skipWs_not_ws _ _ (by decide)]
      rw [parseValCore.eq_def]
      simp [(by decide : ¬('[' = quoteChar)), (by decide : ¬('[' = openBraceChar)),
        skipWs_not_ws ']' rest (by decide)]
    | cons v2 es' =>
      have hshape : dumpsVal (JsonVal.arr (JsonElems.cons v2 es')) ++ rest =
          '[' :: (dumpsElemsTop (JsonElems.cons v2 es') ++ (']' :: rest)) := by
        simp [dumpsVal, List.append_assoc]
      rw [hshape]
      simp only [parseVal]
      rw [skipWs_not_ws _ _ (by decide)]
      rw [parseValCore.eq_def]
      obtain ⟨c0, t0, hv2, hws0, hnb0⟩ := dumpsVal_head v2
      have hQ : dumpsElemsTop (JsonElems.cons v2 es') ++ (']' :: rest) =
          c0 :: (t0 ++ (dumpsElemsRest es' ++ (']' :: rest))) := by
        simp [dumpsElemsTop, hv2, List.append_assoc]
      have helems := parseElems_dumps (JsonElems.cons v2 es') f rest (by simp)
        (by simp only [jsizeVal] at hfuel; omega)
        (by simpa [jsonWfVal] using hwf)
      rw [hQ]
      simp only [List.cons_append]
      rw [skipWs_not_ws _ _ hws0]
      rw [hQ] at helems
      simp [(by decide : ¬('[' = quoteChar)), (by decide : ¬('[' = openBraceChar)),
        hnb0, helems]
  | obj ms =>
    obtain ⟨f, rfl⟩ : ∃ f, fuel = f + 1 :=
      ⟨fuel - 1, by have := jsizeVal_pos (JsonVal.obj ms); omega⟩
    cases ms with
    | nil =>
      have hshape : dumpsVal (JsonVal.obj JsonMembers.nil) ++ rest =
          openBraceChar :: (closeBraceChar :: rest) := by
        simp [dumpsVal, dumpsMembersTop]
      rw [hshape]
      simp only [parseVal]
      rw [skipWs_not_ws _ _ (by decide)]
      rw [parseValCore.eq_def]
      simp [(by decide : ¬(openBraceChar = quoteChar)),
        skipWs_not_ws closeBraceChar rest (by decide)]
    | cons k v2 ms' =>
      have hshape : dumpsVal (JsonVal.obj (JsonMembers.cons k v2 ms')) ++ rest =
          openBraceChar ::
            (dumpsMembersTop (JsonMembers.cons k v2 ms') ++ (closeBraceChar :: rest)) := by
        simp [dumpsVal, List.append_assoc]
      rw [hshape]
      simp only [parseVal]
      rw [skipWs_not_ws _ _ (by decide)]
      rw [parseValCore.eq_def]
      obtain ⟨Q, hQ⟩ : ∃ Q, dumpsMembersTop (JsonMembers.cons k v2 ms') = quoteChar :: Q := by
        refine ⟨k.data.flatMap escapeChar ++ [quoteChar] ++
          (':' :: ' ' :: dumpsVal v2) ++ dumpsMembersRest ms', ?_⟩
        simp [dumpsMembersTop, dumpsStrChars, List.append_assoc]
      have hmem := parseMembers_dumps (JsonMembers.cons k v2 ms') f rest (by simp)
        (by simp only [jsizeVal] at hfuel; omega)
        (by simpa [jsonWfVal] using hwf)
      rw [hQ]
      simp only [List.cons_append]
      rw [skipWs_not_ws _ _ (by decide)]
      rw [hQ] at hmem
      simp only [List.cons_append] at hmem
      simp [(by decide : ¬(openBraceChar = quoteChar)),
        (by decide : ¬(quoteChar = closeBraceChar)), hmem]
/-- Parsing the dumped form of a non-empty element list up to and
including the closing bracket recovers it. -/
theorem parseElems_dumps (es : JsonElems) (f : Nat) (rest : List Char)
    (hne : es ≠ JsonElems.nil) (hfuel : jsizeElems es ≤ f)
    (hwf : jsonWfElems es = true) :
    parseElems f (dumpsElemsTop es ++ (']' :: rest)) = some (es, rest) := by
  cases es with
  | nil => exact absurd rfl hne
  | cons v es' =>
    obtain ⟨f2, rfl⟩ : ∃ f2, f = f2 + 1 :=
      ⟨f - 1, by have := jsizeElems_pos (JsonElems.cons v es'); omega⟩
    have hwfv : jsonWfVal v = true := by
      simp only [jsonWfElems, Bool.and_eq_true] at hwf
      exact hwf.1
    have hwfes : jsonWfElems es' = true := by
      simp only [jsonWfElems, Bool.and_eq_true] at hwf
      exact hwf.2
    have hfv : jsizeVal v ≤ f2 := by
      simp only [jsizeElems] at hfuel
      have := le_max_left (jsizeVal v) (jsizeElems es')
      omega
    have hfe : jsizeElems es' ≤ f2 := by
      simp only [jsizeElems] at hfuel
      have := le_max_right (jsizeVal v) (jsizeElems es')
      omega
    have hshape : dumpsElemsTop (JsonElems.cons v es') ++ (']' :: rest) =
        dumpsVal v ++ (dumpsElemsRest es' ++ (']' :: rest)) := by
      simp [dumpsElemsTop, List.append_assoc]
    rw [hshape]
    simp only [parseElems]
    rw [parseElemsCore.eq_def]
    have hval : parseVal f2 (skipWs (dumpsVal v ++ (dumpsElemsRest es' ++ (']' :: rest)))) =
        some (v, dumpsElemsRest es' ++ (']' :: rest)) := by
      rw [parseVal_skipWs f2 (by have := jsizeVal_pos v; omega)]
      exact parseVal_dumps v f2 (dumpsElemsRest es' ++ (']' :: rest)) hfv
        (restOkB_elemsRest es' rest) hwfv
    cases es' with
    | nil =>
      simp only [dumpsElemsRest, List.nil_append] at hval
      simp [hval, skipWs_not_ws ']' rest (by decide), dumpsElemsRest]
    | cons v2 es2 =>
      have hrest2 : dumpsElemsRest (JsonElems.cons v2 es2) ++ (']' :: rest) =
          ',' :: (' ' :: (dumpsElemsTop (JsonElems.cons v2 es2) ++ (']' :: rest))) := by
        simp [dumpsElemsRest, dumpsElemsTop, List.append_assoc]
      have helems0 := parseElems_dumps (JsonElems.cons v2 es2) f2 rest (by simp) hfe hwfes
      have helems : parseElems f2
          (' ' :: (dumpsElemsTop (JsonElems.cons v2 es2) ++ (']' :: rest))) =
          some (JsonElems.cons v2 es2, rest) := by
        rw [parseElems_space f2 (by have := jsizeElems_pos (JsonElems.cons v2 es2); omega)]
        exact helems0
      rw [hrest2] at hval
      simp [hval, skipWs_not_ws ',' _ (by decide), hrest2, helems]
/-- Parsing the dumped form of a non-empty member list up to and
including the closing brace recovers it. -/
theorem parseMembers_dumps (ms : JsonMembers) (f : Nat) (rest : List Char)
    (hne : ms ≠ JsonMembers.nil) (hfuel : jsizeMembers ms ≤ f)
    (hwf : jsonWfMembers ms = true) :
    parseMembers f (dumpsMembersTop ms ++ (closeBraceChar :: rest)) = some (ms, rest) := by
  cases ms with
  | nil => exact absurd rfl hne
  | cons k v ms' =>
    obtain ⟨f2, rfl⟩ : ∃ f2, f = f2 + 1 :=
      ⟨f - 1, by have := jsizeMembers_pos (JsonMembers.cons k v ms'); omega⟩
    have hwfv : jsonWfVal v = true := by
      simp only [jsonWfMembers, Bool.and_eq_true] at hwf
      exact hwf.1
    have hwfms : jsonWfMembers ms' = true := by
      simp only [jsonWfMembers, Bool.and_eq_true] at hwf
      exact hwf.2
    have hfv : jsizeVal v ≤ f2 := by
      simp only [jsizeMembers] at hfuel
      have := le_max_left (jsizeVal v) (jsizeMembers ms')
      omega
    have hfm : jsizeMembers ms' ≤ f2 := by
      simp only [jsizeMembers] at hfuel
      have := le_max_right (jsizeVal v) (jsizeMembers ms')
      omega
    have hshape : dumpsMembersTop (JsonMembers.cons k v ms') ++ (closeBraceChar :: rest) =
        quoteChar :: (k.data.flatMap escapeChar ++ (quoteChar ::
          (':' :: (' ' :: (dumpsVal v ++
            (dumpsMembersRest ms' ++ (closeBraceChar :: rest))))))) := by
      simp [dumpsMembersTop, dumpsStrChars, List.append_assoc]
    rw [hshape]
    simp only [parseMembers]
    rw [skipWs_not_ws _ _ (by decide)]
    rw [parseMembersCore.eq_def]
    have hkey := parseStrChars_flatMap k.data
      (':' :: (' ' :: (dumpsVal v ++ (dumpsMembersRest ms' ++ (closeBraceChar :: rest)))))
    have hval0 := parseVal_dumps v f2
      (dumpsMembersRest ms' ++ (closeBraceChar :: rest)) hfv
      (restOkB_membersRest ms' rest) hwfv
    have hval : parseVal f2
        (' ' :: (dumpsVal v ++ (dumpsMembersRest ms' ++ (closeBraceChar :: rest)))) =
        some (v, dumpsMembersRest ms' ++ (closeBraceChar :: rest)) := by
      rw [parseVal_space f2 (by have := jsizeVal_pos v; omega) _]
      exact hval0
    cases ms' with
    | nil =>
      simp only [dumpsMembersRest, List.nil_append] at hkey hval
      simp [hkey, hval, skipWs_not_ws ':' _ (by decide),
        skipWs_not_ws closeBraceChar rest (by decide),
        dumpsMembersRest,
        (by decide : ¬(closeBraceChar = ',')),
        (show String.mk k.data = k by cases k; rfl)]
    | cons k2 v2 ms2 =>
      have hrest2 : dumpsMembersRest (JsonMembers.cons k2 v2 ms2) ++ (closeBraceChar :: rest) =
          ',' :: (' ' :: (dumpsMembersTop (JsonMembers.cons k2 v2 ms2) ++
            (closeBraceChar :: rest))) := by
        simp [dumpsMembersRest, dumpsMembersTop, List.append_assoc]
      have hmem0 := parseMembers_dumps (JsonMembers.cons k2 v2 ms2) f2 rest (by simp)
        hfm hwfms
      have hmem : parseMembers f2
          (' ' :: (dumpsMembersTop (JsonMembers.cons k2 v2 ms2) ++ (closeBraceChar :: rest))) =
          some (JsonMembers.cons k2 v2 ms2, rest) := by
        rw [parseMembers_space f2
          (by have := jsizeMembers_pos (JsonMembers.cons k2 v2 ms2); omega)]
        exact hmem0
      rw [hrest2] at hval hkey
      simp [hkey, hval, skipWs_not_ws ':' _ (by decide),
        skipWs_not_ws ',' _ (by decide), hrest2, hmem,
        (show String.mk k.data = k by cases k; rfl)]
end

/-! ## Full json round trip -/

mutual
/-- The parser fuel requirement never exceeds the dumped length. -/
theorem jsizeVal_le_dumps (v : JsonVal) : jsizeVal v ≤ (dumpsVal v).length := by
  cases v with
  | null =>
    have h2 : 0 < (dumpsVal JsonVal.null).length :=
      List.length_pos.mpr (dumpsVal_ne_nil _)
    simp only [jsizeVal]
    omega
  | bool b =>
    have h2 : 0 < (dumpsVal (JsonVal.bool b)).length :=
      List.length_pos.mpr (dumpsVal_ne_nil _)
    simp only [jsizeVal]
    omega
  | num n =>
    have h2 : 0 < (dumpsVal (JsonVal.num n)).length :=
      List.length_pos.mpr (dumpsVal_ne_nil _)
    simp only [jsizeVal]
    omega
  | flt pf =>
    have h2 : 0 < (dumpsVal (JsonVal.flt pf)).length :=
      List.length_pos.mpr (dumpsVal_ne_nil _)
    simp only [jsizeVal]
    omega
  | str s =>
    have h2 : 0 < (dumpsVal (JsonVal.str s)).length :=
      List.length_pos.mpr (dumpsVal_ne_nil _)
    simp only [jsizeVal]
    omega
  | arr es =>
    have h := jsizeElems_le_dumps es
    simp only [jsizeVal, dumpsVal, List.length_cons, List.length_append]
    omega
  | obj ms =>
    have h := jsizeMembers_le_dumps ms
    simp only [jsizeVal, dumpsVal, List.length_cons, List.length_append]
    omega
/-- Element fuel requirement against dumped length. -/
theorem jsizeElems_le_dumps (es : JsonElems) :
    jsizeElems es ≤ (dumpsElemsTop es).length + 1 := by
  cases es with
  | nil => simp [jsizeElems, dumpsElemsTop]
  | cons v rest =>
    have hv := jsizeVal_le_dumps v
    have hvpos : 0 < (dumpsVal v).length := List.length_pos.mpr (dumpsVal_ne_nil v)
    have he := jsizeElems_le_dumps rest
    have hje : jsizeElems rest ≤ (dumpsVal v).length + (dumpsElemsRest rest).length := by
      cases rest with
      | nil =>
        simp only [jsizeElems, dumpsElemsRest, List.length_nil]
        omega
      | cons v2 es2 =>
        have hlen : (dumpsElemsRest (JsonElems.cons v2 es2)).length =
            (dumpsElemsTop (JsonElems.cons v2 es2)).length + 2 := by
          simp only [dumpsElemsRest, dumpsElemsTop, List.length_cons, List.length_append]
        simp only [jsizeElems] at he ⊢
        omega
    simp only [jsizeElems, dumpsElemsTop, List.length_append]
    exact Nat.add_le_add_right
      (max_le (le_trans hv (Nat.le_add_right _ _)) hje) 1
/-- Member fuel requirement against dumped length. -/
theorem jsizeMembers_le_dumps (ms : JsonMembers) :
    jsizeMembers ms ≤ (dumpsMembersTop ms).length + 1 := by
  cases ms with
  | nil => simp [jsizeMembers, dumpsMembersTop]
  | cons k v rest =>
    have hv := jsizeVal_le_dumps v
    have hm := jsizeMembers_le_dumps rest
    have hkq : 2 ≤ (dumpsStrChars k).length := by
      simp only [dumpsStrChars, List.length_cons, List.length_append]
      omega
    have hjm : jsizeMembers rest ≤
        (dumpsStrChars k).length + 2 + (dumpsVal v).length +
          (dumpsMembersRest rest).length := by
      cases rest with
      | nil =>
        simp only [jsizeMembers, dumpsMembersRest, List.length_nil]
        omega
      | cons k2 v2 ms2 =>
        have hlen : (dumpsMembersRest (JsonMembers.cons k2 v2 ms2)).length =
            (dumpsMembersTop (JsonMembers.cons k2 v2 ms2)).length + 2 := by
          simp only [dumpsMembersRest, dumpsMembersTop, List.length_cons,
            List.length_append]
        simp only [jsizeMembers] at hm ⊢
        omega
    have hgoal : max (jsizeVal v) (jsizeMembers rest) ≤
        (dumpsStrChars k).length + 2 + (dumpsVal v).length +
          (dumpsMembersRest rest).length := by
      refine max_le (le_trans hv ?_) hjm
      omega
    simp only [jsizeMembers, dumpsMembersTop, List.length_append, List.length_cons]
    omega
end

/-- `json.loads` undoes `json.dumps` on every well-formed value. -/
theorem jsonLoads_dumps (v : JsonVal) (hwf : jsonWfVal v = true) :
    jsonLoads (jsonDumps v) = some v := by
  unfold jsonLoads jsonDumps
  rw [show (String.mk (dumpsVal v)).data = dumpsVal v from rfl,
    show (String.mk (dumpsVal v)).length = (dumpsVal v).length from rfl]
  have h := parseVal_dumps v ((dumpsVal v).length + 1) []
    (le_trans (jsizeVal_le_dumps v) (by omega)) rfl hwf
  rw [List.append_nil] at h
  rw [h]
  rfl

/-- The encoded payload of a dumped value is never empty. -/
theorem utf8Encode_dumps_ne_nil (v : JsonVal) : utf8Encode (jsonDumps v) ≠ [] := by
  unfold utf8Encode jsonDumps
  rw [show (String.mk (dumpsVal v)).data = dumpsVal v from rfl]
  have h := dumpsVal_ne_nil v
  cases hd : dumpsVal v with
  | nil => exact absurd hd h
  | cons c t =>
    simp only [List.flatMap_cons, ne_eq]
    intro h1
    have h2 : utf8EncodeChar c = [] := (List.append_eq_nil.mp h1).1
    have := utf8EncodeChar_length_pos c
    rw [h2] at this
    simp at this

/-! ## Claim C3: frame round trip -/

/-- Claim C3: for every value (floats by their printed literal, with
every literal well-formed) whose UTF-8 JSON payload fits a 4-byte
length, `_send_message` produces the framed byte stream and
`_receive_message` on exactly that stream returns the value with
nothing left over. -/
theorem c3_frame_round_trip (x : JsonVal) (hwf : jsonWfVal x = true)
    (h : (utf8Encode (jsonDumps x)).length < 4294967296) :
    sendMessage x =
      some (toBytesBE4 (utf8Encode (jsonDumps x)).length ++ utf8Encode (jsonDumps x)) ∧
    receiveMessage
        (toBytesBE4 (utf8Encode (jsonDumps x)).length ++ utf8Encode (jsonDumps x)) =
      some (x, []) := by
  constructor
  · unfold sendMessage
    rw [if_pos h]
  · have h4 : receiveExact
        (toBytesBE4 (utf8Encode (jsonDumps x)).length ++ utf8Encode (jsonDumps x)) 4 =
        some (toBytesBE4 (utf8Encode (jsonDumps x)).length, utf8Encode (jsonDumps x)) := by
      have hh := receiveExact_append
        (toBytesBE4 (utf8Encode (jsonDumps x)).length) (utf8Encode (jsonDumps x))
      rwa [show (toBytesBE4 (utf8Encode (jsonDumps x)).length).length = 4 from rfl] at hh
    simp only [receiveMessage, h4, fromBytesBE_toBytesBE4 _ h, receiveExact_self,
      utf8Encode_dumps_ne_nil x, utf8Decode_encode (jsonDumps x),
      show String.mk (jsonDumps x).data = jsonDumps x from by cases hj : jsonDumps x; rfl,
      jsonLoads_dumps x hwf, ite_false, if_neg]

/-- The sample envelope carrier used by the transport witnesses: the
`timestamp` field carries the float `time.time()` value
`1700000000.5`, as the program's own frames do. -/
def sampleWireDict : JsonVal :=
  JsonVal.obj (JsonMembers.cons "type" (JsonVal.str "chat_sync_obj")
    (JsonMembers.cons "data"
      (JsonVal.obj (JsonMembers.cons "type" (JsonVal.num 0)
        (JsonMembers.cons "server_name" (JsonVal.str "leafA")
          (JsonMembers.cons "player" (JsonVal.str "alice")
            (JsonMembers.cons "message" (JsonVal.str "hi") JsonMembers.nil)))))
      (JsonMembers.cons "timestamp"
        (JsonVal.flt (PyFloat.finite ⟨false, 1700000000, some [5], none⟩))
        JsonMembers.nil)))

set_option maxRecDepth 100000 in
/-- Witness for C3 on a concrete envelope carrier with a float
timestamp. -/
theorem c3_frame_round_trip_witness :
    sendMessage sampleWireDict =
      some (toBytesBE4 (utf8Encode (jsonDumps sampleWireDict)).length ++
        utf8Encode (jsonDumps sampleWireDict)) ∧
    receiveMessage
        (toBytesBE4 (utf8Encode (jsonDumps sampleWireDict)).length ++
          utf8Encode (jsonDumps sampleWireDict)) =
      some (sampleWireDict, []) :=
  c3_frame_round_trip sampleWireDict (by decide) (by decide)

/-! ## Claim C7: recvFrame totality and Closed semantics -/

/-- Claim C7: `_receive_message` either returns a decoded frame or the
`Closed` signal; a stream shorter than the 4 length bytes, a stream
shorter than the declared payload length, a payload that fails UTF-8
decoding, and a payload that fails JSON decoding all yield `Closed`
(`none`), never an error to the caller. -/
theorem c7_recvFrame_closed (stream : List Nat) :
    (receiveMessage stream = none ∨ ∃ v r, receiveMessage stream = some (v, r)) ∧
    (stream.length < 4 → receiveMessage stream = none) ∧
    (∀ lenB rest, receiveExact stream 4 = some (lenB, rest) →
      rest.length < fromBytesBE lenB → receiveMessage stream = none) ∧
    (∀ lenB rest data rest2, receiveExact stream 4 = some (lenB, rest) →
      receiveExact rest (fromBytesBE lenB) = some (data, rest2) →
      utf8Decode data = none → receiveMessage stream = none) ∧
    (∀ lenB rest data rest2 cs, receiveExact stream 4 = some (lenB, rest) →
      receiveExact rest (fromBytesBE lenB) = some (data, rest2) →
      utf8Decode data = some cs → jsonLoads (String.mk cs) = none →
      receiveMessage stream = none) := by
  refine ⟨?_, ?_, ?_, ?_, ?_⟩
  · cases h : receiveMessage stream with
    | none => exact Or.inl rfl
    | some pr => exact Or.inr ⟨pr.1, pr.2, rfl⟩
  · intro hshort
    have hre : receiveExact stream 4 = none := by
      unfold receiveExact
      rw [if_neg (by omega)]
    simp only [receiveMessage, hre]
  · intro lenB rest h1 hlt
    have hre2 : receiveExact rest (fromBytesBE lenB) = none := by
      unfold receiveExact
      rw [if_neg (by omega)]
    simp only [receiveMessage, h1, hre2]
  · intro lenB rest data rest2 h1 h2 hdec
    by_cases hd : data = []
    · simp only [receiveMessage, h1, h2, hd, ite_true, if_pos]
    · simp only [receiveMessage, h1, h2, hd, ite_false, if_neg, hdec]
  · intro lenB rest data rest2 cs h1 h2 hdec hjson
    by_cases hd : data = []
    · simp only [receiveMessage, h1, h2, hd, ite_true, if_pos]
    · simp only [receiveMessage, h1, h2, hd, ite_false, if_neg, hdec, hjson]

/-- Witness for C7: a declared length of 5 with only one payload byte
yields the Closed signal. -/
theorem c7_recvFrame_closed_witness :
    receiveMessage [0, 0, 0, 5, 65] = none :=
  (c7_recvFrame_closed [0, 0, 0, 5, 65]).2.2.1 [0, 0, 0, 5] [65] rfl (by decide)

/-! ## Claim C4: authentication gate
(`_authenticate_client` / `_handle_client`, `network.py` 175-302) -/

/-- The `{"type": "auth_response", "success": ok}` reply. -/
def authResponse (ok : Bool) : JsonVal :=
  JsonVal.obj (JsonMembers.cons "type" (JsonVal.str "auth_response")
    (JsonMembers.cons "success" (JsonVal.bool ok) JsonMembers.nil))

/-- `_authenticate_client`: receive the first frame; a missing frame,
a non-dict value, or a dict whose `type` is not the string `"auth"`
fails silently (the falsy/`AttributeError` paths); otherwise
`auth_data.get("password", "")` — defaulting only an absent key to the
empty string — is compared with the configured secret, and the
matching auth response is sent.  Returns the verdict and the frames
sent. -/
def authenticateClient (password : String) (firstFrame : Option JsonVal) :
    Bool × List JsonVal :=
  match firstFrame with
  | none => (false, [])
  | some (JsonVal.obj fields) =>
    if dictGet fields "type" = some (JsonVal.str "auth") then
      if (dictGet fields "password").getD (JsonVal.str "") = JsonVal.str password then
        (true, [authResponse true])
      else (false, [authResponse false])
    else (false, [])
  | some _ => (false, [])

/-- Observable connection-lifecycle events of `_handle_client` during
the authentication phase. -/
inductive ConnEvent where
  | sentResponse (v : JsonVal)
  | registered (cid : String)
  | closedConn
deriving Repr, DecidableEq

/-- `_handle_client` up to registration: run the authentication; on
failure close the socket without registering; on success register the
connection id (the auth-success response having been sent inside the
authentication, before registration). -/
def handleClientAuth (password cid : String) (firstFrame : Option JsonVal) :
    List ConnEvent :=
  let res := authenticateClient password firstFrame
  if res.1 then
    res.2.map ConnEvent.sentResponse ++ [ConnEvent.registered cid]
  else
    res.2.map ConnEvent.sentResponse ++ [ConnEvent.closedConn]

/-- `client_connections` after `_handle_client` finishes the
authentication phase. -/
def clientRegistryAfter (registry : List String) (password cid : String)
    (firstFrame : Option JsonVal) : List String :=
  if (authenticateClient password firstFrame).1 then registry ++ [cid] else registry

/-- A successful authentication is exactly the accepting run. -/
theorem authenticateClient_true (password : String) (frame : Option JsonVal)
    (h : (authenticateClient password frame).1 = true) :
    authenticateClient password frame = (true, [authResponse true]) := by
  cases frame with
  | none => simp [authenticateClient] at h
  | some v =>
    cases v with
    | obj fields =>
      by_cases ht : dictGet fields "type" = some (JsonVal.str "auth")
      · by_cases hp : (dictGet fields "password").getD (JsonVal.str "") = JsonVal.str password
        · simp [authenticateClient, ht, hp]
        · simp [authenticateClient, ht, hp] at h
      · simp [authenticateClient, ht] at h
    | null => simp [authenticateClient] at h
    | bool b => simp [authenticateClient] at h
    | num n => simp [authenticateClient] at h
    | flt pf => simp [authenticateClient] at h
    | str s => simp [authenticateClient] at h
    | arr es => simp [authenticateClient] at h

/-- Counterexample for C4 as stated: with an empty configured secret,
a first frame `{"type": "auth"}` that has no `password` key at all is
accepted and registered — `auth_data.get("password", "")` silently
substitutes the empty string — although no password field equals the
secret, so "registered iff the password field exactly equals the
secret" fails. -/
theorem c4_auth_gate_counterexample :
    (authenticateClient ""
      (some (JsonVal.obj (JsonMembers.cons "type" (JsonVal.str "auth")
        JsonMembers.nil)))).1 = true ∧
    dictGet (JsonMembers.cons "type" (JsonVal.str "auth") JsonMembers.nil) "password" =
      none ∧
    clientRegistryAfter [] "" "10.0.0.9:900"
      (some (JsonVal.obj (JsonMembers.cons "type" (JsonVal.str "auth")
        JsonMembers.nil))) = ["10.0.0.9:900"] := by
  refine ⟨by decide, by decide, by decide⟩

/-- Amended claim C4: a connection is registered iff its first frame
is a dict with `type = "auth"` whose `password` value — taken as the
empty string when the key is absent — equals the configured secret;
on success the auth-success response is sent before registration, and
on any failure (wrong secret, wrong type, non-dict or missing frame)
the connection is closed without ever being registered. -/
theorem c4_auth_gate (password cid : String) (registry : List String)
    (frame : Option JsonVal) :
    ((authenticateClient password frame).1 = true ↔
      ∃ fields, frame = some (JsonVal.obj fields) ∧
        dictGet fields "type" = some (JsonVal.str "auth") ∧
        (dictGet fields "password").getD (JsonVal.str "") = JsonVal.str password) ∧
    ((authenticateClient password frame).1 = true →
      handleClientAuth password cid frame =
        [ConnEvent.sentResponse (authResponse true), ConnEvent.registered cid] ∧
      clientRegistryAfter registry password cid frame = registry ++ [cid]) ∧
    ((authenticateClient password frame).1 = false →
      ConnEvent.registered cid ∉ handleClientAuth password cid frame ∧
      clientRegistryAfter registry password cid frame = registry) := by
  refine ⟨?_, ?_, ?_⟩
  · constructor
    · intro h
      cases frame with
      | none => simp [authenticateClient] at h
      | some v =>
        cases v with
        | obj fields =>
          by_cases ht : dictGet fields "type" = some (JsonVal.str "auth")
          · by_cases hp : (dictGet fields "password").getD (JsonVal.str "") =
                JsonVal.str password
            · exact ⟨fields, rfl, ht, hp⟩
            · simp [authenticateClient, ht, hp] at h
          · simp [authenticateClient, ht] at h
        | null => simp [authenticateClient] at h
        | bool b => simp [authenticateClient] at h
        | num n => simp [authenticateClient] at h
        | flt pf => simp [authenticateClient] at h
        | str s => simp [authenticateClient] at h
        | arr es => simp [authenticateClient] at h
    · rintro ⟨fields, rfl, ht, hp⟩
      simp [authenticateClient, ht, hp]
  · intro h
    have hres := authenticateClient_true password frame h
    constructor
    · simp [handleClientAuth, hres]
    · simp [clientRegistryAfter, h]
  · intro h
    constructor
    · simp only [handleClientAuth, h, Bool.false_eq_true, ite_false, if_neg]
      intro hmem
      rcases List.mem_append.mp hmem with hmem2 | hmem2
      · rcases List.mem_map.mp hmem2 with ⟨y, _, heq⟩
        cases heq
      · rcases List.mem_singleton.mp hmem2 with heq
        cases heq
    · simp [clientRegistryAfter, h]

/-- Witness for C4 amended: a correct secret registers the connection
after the success response; a wrong secret never registers it. -/
theorem c4_auth_gate_witness :
    handleClientAuth "s3cret" "10.0.0.1:100"
      (some (JsonVal.obj (JsonMembers.cons "type" (JsonVal.str "auth")
        (JsonMembers.cons "password" (JsonVal.str "s3cret") JsonMembers.nil)))) =
      [ConnEvent.sentResponse (authResponse true),
       ConnEvent.registered "10.0.0.1:100"] ∧
    clientRegistryAfter [] "s3cret" "10.0.0.1:100"
      (some (JsonVal.obj (JsonMembers.cons "type" (JsonVal.str "auth")
        (JsonMembers.cons "password" (JsonVal.str "s3cret") JsonMembers.nil)))) =
      [] ++ ["10.0.0.1:100"] :=
  (c4_auth_gate "s3cret" "10.0.0.1:100" []
    (some (JsonVal.obj (JsonMembers.cons "type" (JsonVal.str "auth")
      (JsonMembers.cons "password" (JsonVal.str "s3cret") JsonMembers.nil))))).2.1
    (by decide)
